import Mathlib

/-!
Verification development for the resume-optimizer repository.

The TypeScript sources are shallowly embedded over `List Char` / `String`:
JavaScript strings become `String` (with `List Char` used internally),
`undefined`-able fields become `Option`, arrays become `List`, and every
regular-expression use in the embedded functions is hand-compiled to an
explicit scanning function with the same matching semantics (leftmost match,
greedy character-class runs, ordered alternation) on the inputs considered.
-/

/-! ## Character classes and basic JavaScript string primitives -/

abbrev Chars := List Char

def lbrace : Char := Char.ofNat 123

def rbrace : Char := Char.ofNat 125

def apos : Char := Char.ofNat 39

def quot : Char := Char.ofNat 34

def isAsciiUpper (c : Char) : Bool := 'A' ≤ c && c ≤ 'Z'

def isAsciiLower (c : Char) : Bool := 'a' ≤ c && c ≤ 'z'

def isAsciiLetter (c : Char) : Bool := isAsciiUpper c || isAsciiLower c

def isDigitChar (c : Char) : Bool := '0' ≤ c && c ≤ '9'

/-- JavaScript regex `\w` (no unicode flag): `[A-Za-z0-9_]`. -/
def isWordChar (c : Char) : Bool := isAsciiLetter c || isDigitChar c || c = '_'

/-- JavaScript regex `\s` restricted to the ASCII whitespace characters. -/
def isJsWs (c : Char) : Bool :=
  c = ' ' || c = '\t' || c = '\n' || c = '\r' || c = Char.ofNat 11 || c = Char.ofNat 12

/-- JavaScript `String.prototype.trim` (ASCII whitespace). -/
def trimChars (s : Chars) : Chars :=
  ((s.dropWhile isJsWs).reverse.dropWhile isJsWs).reverse

/-- JavaScript `str.split(sep)` for a single-character separator. -/
def splitOnChar (sep : Char) : Chars → List Chars
  | [] => [[]]
  | c :: t =>
    match splitOnChar sep t with
    | [] => [[c]]
    | h :: r => if c = sep then [] :: h :: r else (c :: h) :: r

/-- `pat` is a prefix of `s` (Boolean, structural). -/
def startsWith : Chars → Chars → Bool
  | [], _ => true
  | _ :: _, [] => false
  | p :: ps, c :: cs => p = c && startsWith ps cs

/-- `pat` occurs as a contiguous substring of `s` (JavaScript `includes`). -/
def occursIn (pat : Chars) : Chars → Bool
  | [] => startsWith pat []
  | c :: t => startsWith pat (c :: t) || occursIn pat t

/-- Number of positions of `s` at which `pat` begins (occurrences may overlap). -/
def occCount (pat : Chars) : Chars → Nat
  | [] => if startsWith pat [] then 1 else 0
  | c :: t => (if startsWith pat (c :: t) then 1 else 0) + occCount pat t

/-- Fuel-driven scanner behind `replaceAllL` (the fuel is only a structural
termination device; `replaceAllL` always supplies enough). -/
def replaceAllGo (pat rep : Chars) : Nat → Chars → Chars
  | 0, s => s
  | _ + 1, [] => []
  | fuel + 1, c :: t =>
    if startsWith pat (c :: t) then rep ++ replaceAllGo pat rep fuel (t.drop (pat.length - 1))
    else c :: replaceAllGo pat rep fuel t

/-- JavaScript `str.split(pat).join(rep)`: replace every (leftmost,
non-overlapping) occurrence of `pat` by `rep`. -/
def replaceAllL (pat rep s : Chars) : Chars := replaceAllGo pat rep s.length s

/-- `replaceFirst` from `scripts/generate-template.ts`: replace the first
occurrence of `pat` (found by `indexOf`) by `rep`; identity when absent. -/
def replaceFirstL (pat rep : Chars) : Chars → Chars
  | [] => if startsWith pat [] then rep else []
  | c :: t =>
    if startsWith pat (c :: t) then rep ++ (c :: t).drop pat.length
    else c :: replaceFirstL pat rep t

/-- Neither `{` nor `}` occurs in `s`. -/
def braceFree (s : Chars) : Bool := s.all (fun c => c ≠ lbrace && c ≠ rbrace)

/-- Scanner behind `collapseWs`; `inWs` records whether the previous
character was whitespace. -/
def collapseWsGo (inWs : Bool) : Chars → Chars
  | [] => []
  | c :: t =>
    if isJsWs c then
      if inWs then collapseWsGo true t else ' ' :: collapseWsGo true t
    else c :: collapseWsGo false t

/-- Collapse of every maximal run of whitespace to a single space
(JavaScript `replace(/\s+/g, " ")`). -/
def collapseWs (s : Chars) : Chars := collapseWsGo false s

/-! ## Shared data model (`src/lib/types.ts`) -/

structure Contact where
  name : Option String := none
  email : Option String := none
  phone : Option String := none
  location : Option String := none
  linkedin : Option String := none
  deriving Repr, DecidableEq

structure EducationEntry where
  school : Option String := none
  degree : Option String := none
  dates : Option String := none
  gpa : Option String := none
  rawText : Option String := none
  deriving Repr, DecidableEq

structure ExperienceEntry where
  company : Option String := none
  role : Option String := none
  location : Option String := none
  dates : Option String := none
  subheader : Option String := none
  bullets : List String := []
  deriving Repr, DecidableEq

structure ProjectEntry where
  title : Option String := none
  bullets : List String := []
  deriving Repr, DecidableEq

structure ParsedResume where
  contact : Contact := {}
  education : List EducationEntry := []
  experience : List ExperienceEntry := []
  projects : List ProjectEntry := []
  skills : List String := []
  otherSections : Option (List (String × String)) := none
  deriving Repr, DecidableEq

structure AnalyzeResponse where
  missingKeywords : List String := []
  matchedKeywords : List String := []
  deriving Repr, DecidableEq

structure OptExperienceEntry where
  company : Option String := none
  role : Option String := none
  subheader : Option String := none
  bullets : List String := []
  deriving Repr, DecidableEq

structure OptProjectEntry where
  title : Option String := none
  bullets : List String := []
  deriving Repr, DecidableEq

structure OptimizedSections where
  experience : Option (List OptExperienceEntry) := none
  education : Option (List EducationEntry) := none
  projects : Option (List OptProjectEntry) := none
  skills : Option (List String) := none
  contact : Option Contact := none
  deriving Repr, DecidableEq

/-! ## Keyword analysis (`src/lib/analyze.ts`) -/

/-- Insertion into a JavaScript `Set` modelled as a duplicate-free list that
keeps first-occurrence order. -/
def addToken (acc : List String) (t : String) : List String :=
  if t ∈ acc then acc else acc ++ [t]

def toTokenSet (l : List String) : List String := l.foldl addToken []

/-- `tokenize` from `src/lib/analyze.ts`: lowercase, replace `[^\w\s]` by a
space, collapse `\s+` to one space, split on spaces, trim, keep tokens of
length `> 2` that do not match `/^\d+$/`, and collect them into a `Set`. -/
def tokenize (text : String) : List String :=
  let lowered := text.data.map Char.toLower
  let nonWordGone := lowered.map (fun c => if isWordChar c || isJsWs c then c else ' ')
  let normalized := collapseWs nonWordGone
  let parts := ((splitOnChar ' ' normalized).map trimChars)
  let kept := parts.filter (fun t => t.length > 2 && !(!t.isEmpty && t.all isDigitChar))
  toTokenSet (kept.map (fun l => String.mk l))

/-- `resumeText` from `src/lib/analyze.ts`. -/
def resumeText (resume : ParsedResume) : String :=
  let parts : List (Option String) :=
    [resume.contact.name,
     resume.contact.email,
     some (String.intercalate " " resume.skills)]
    ++ (resume.experience.flatMap (fun e => [e.company, e.role] ++ e.bullets.map some))
    ++ (resume.projects.flatMap (fun p => [p.title] ++ p.bullets.map some))
    ++ (resume.education.map (fun e =>
          some (e.rawText.getD
            (String.intercalate " "
              (([e.school, e.degree].filterMap id).filter (fun s => s ≠ ""))))))
  String.intercalate " " ((parts.filterMap id).filter (fun s => s ≠ ""))

/-- `compareKeywords` from `src/lib/analyze.ts`: iterate over the job-token
set, pushing each token onto `matchedKeywords` when the resume-token set has
it and onto `missingKeywords` otherwise. -/
def compareKeywords (resume : ParsedResume) (jobDescription : String) : AnalyzeResponse :=
  let jobTokens := tokenize jobDescription
  let resumeTokens := tokenize (resumeText resume)
  let acc := jobTokens.foldl
    (fun (mm : List String × List String) t =>
      if t ∈ resumeTokens then (mm.1, mm.2 ++ [t]) else (mm.1 ++ [t], mm.2))
    ([], [])
  { missingKeywords := acc.1, matchedKeywords := acc.2 }

/-! ## Merging optimized sections (`src/app/api/optimize/route.ts`) -/

/-- `mergeOptimizedIntoResume` from `src/app/api/optimize/route.ts`. -/
def mergeOptimizedIntoResume (parsed : ParsedResume) (optimized : OptimizedSections) :
    ParsedResume :=
  let education : List EducationEntry :=
    match optimized.education with
    | some l => if !l.isEmpty then l else parsed.education
    | none => parsed.education
  let experience : List ExperienceEntry :=
    match optimized.experience with
    | some l =>
      if !l.isEmpty then
        l.enum.map (fun ie =>
          let orig := parsed.experience[ie.1]?
          { company := ie.2.company
            role := ie.2.role
            location := orig.bind (·.location)
            dates := orig.bind (·.dates)
            subheader := ie.2.subheader <|> orig.bind (·.subheader)
            bullets := ie.2.bullets })
      else parsed.experience
    | none => parsed.experience
  let skills : List String :=
    match optimized.skills with
    | some l => if !l.isEmpty then l else parsed.skills
    | none => parsed.skills
  let projects : List ProjectEntry :=
    match optimized.projects with
    | some l =>
      if !l.isEmpty then
        l.enum.map (fun ip =>
          { title := ip.2.title <|> (parsed.projects[ip.1]?).bind (·.title)
            bullets := ip.2.bullets })
      else parsed.projects
    | none => parsed.projects
  { contact := optimized.contact.getD parsed.contact
    education := education
    experience := experience
    projects := projects
    skills := skills
    otherSections := parsed.otherSections }

/-! ## Template payload (`src/lib/template-populate.ts`) -/

def MAX_EDUCATION : Nat := 2

def MAX_EXPERIENCE : Nat := 3

def MAX_EXPERIENCE_BULLETS : Nat := 4

def MAX_PROJECTS : Nat := 2

def MAX_PROJECT_BULLETS : Nat := 2

/-- View of a parsed experience entry through the overlay field set
(`company`, `role`, `subheader`, `bullets`); `buildTemplatePayload` reads
only these fields from the `optimized?.experience ?? parsed.experience`
union value, taking `location`/`dates` from `parsed` separately. -/
def ExperienceEntry.toOverlay (e : ExperienceEntry) : OptExperienceEntry :=
  { company := e.company, role := e.role, subheader := e.subheader, bullets := e.bullets }

/-- `buildTemplatePayload` from `src/lib/template-populate.ts`, as the
association list of (key, value) pairs in insertion order. -/
def buildTemplatePayload (parsed : ParsedResume) (optimized : Option OptimizedSections) :
    List (String × String) :=
  let contact : Contact := (optimized.bind (·.contact)).getD parsed.contact
  let education : List EducationEntry := (optimized.bind (·.education)).getD parsed.education
  let experience : List OptExperienceEntry :=
    (optimized.bind (·.experience)).getD (parsed.experience.map ExperienceEntry.toOverlay)
  let skills : List String := (optimized.bind (·.skills)).getD parsed.skills
  ([("contact.name", contact.name.getD ""),
    ("contact.phone", contact.phone.getD ""),
    ("contact.email", contact.email.getD ""),
    ("contact.location", contact.location.getD ""),
    ("contact.linkedin", contact.linkedin.getD ""),
    ("skills", String.intercalate ", " skills)])
  ++ (List.range MAX_EDUCATION).flatMap (fun i =>
      let e : Option EducationEntry := education[i]? <|> parsed.education[i]?
      [("education." ++ toString i ++ ".school", (e.bind (·.school)).getD ""),
       ("education." ++ toString i ++ ".degree", (e.bind (·.degree)).getD ""),
       ("education." ++ toString i ++ ".dates", (e.bind (·.dates)).getD ""),
       ("education." ++ toString i ++ ".gpa", (e.bind (·.gpa)).getD "")])
  ++ (List.range MAX_EXPERIENCE).flatMap (fun i =>
      let opt : Option OptExperienceEntry := experience[i]?
      let orig : Option ExperienceEntry := parsed.experience[i]?
      let bullets : List String := ((opt.map (·.bullets)) <|> (orig.map (·.bullets))).getD []
      [("experience." ++ toString i ++ ".company",
          ((opt.bind (·.company)) <|> (orig.bind (·.company))).getD ""),
       ("experience." ++ toString i ++ ".role",
          ((opt.bind (·.role)) <|> (orig.bind (·.role))).getD ""),
       ("experience." ++ toString i ++ ".location", (orig.bind (·.location)).getD ""),
       ("experience." ++ toString i ++ ".dates", (orig.bind (·.dates)).getD ""),
       ("experience." ++ toString i ++ ".subheader",
          ((opt.bind (·.subheader)) <|> (orig.bind (·.subheader))).getD "")]
      ++ (List.range MAX_EXPERIENCE_BULLETS).map (fun j =>
          ("experience." ++ toString i ++ ".bullet." ++ toString j, bullets[j]?.getD "")))
  ++ (List.range MAX_PROJECTS).flatMap (fun i =>
      let proj : Option ProjectEntry := parsed.projects[i]?
      let bullets : List String := (proj.map (·.bullets)).getD []
      [("projects." ++ toString i ++ ".title", (proj.bind (·.title)).getD "")]
      ++ (List.range MAX_PROJECT_BULLETS).map (fun j =>
          ("projects." ++ toString i ++ ".bullet." ++ toString j, bullets[j]?.getD "")))

/-- The 47 capped placeholder keys, in the order `buildTemplatePayload`
inserts them. -/
def payloadKeys : List String :=
  ["contact.name", "contact.phone", "contact.email", "contact.location", "contact.linkedin",
   "skills",
   "education.0.school", "education.0.degree", "education.0.dates", "education.0.gpa",
   "education.1.school", "education.1.degree", "education.1.dates", "education.1.gpa",
   "experience.0.company", "experience.0.role", "experience.0.location", "experience.0.dates",
   "experience.0.subheader",
   "experience.0.bullet.0", "experience.0.bullet.1", "experience.0.bullet.2",
   "experience.0.bullet.3",
   "experience.1.company", "experience.1.role", "experience.1.location", "experience.1.dates",
   "experience.1.subheader",
   "experience.1.bullet.0", "experience.1.bullet.1", "experience.1.bullet.2",
   "experience.1.bullet.3",
   "experience.2.company", "experience.2.role", "experience.2.location", "experience.2.dates",
   "experience.2.subheader",
   "experience.2.bullet.0", "experience.2.bullet.1", "experience.2.bullet.2",
   "experience.2.bullet.3",
   "projects.0.title", "projects.0.bullet.0", "projects.0.bullet.1",
   "projects.1.title", "projects.1.bullet.0", "projects.1.bullet.1"]

/-! ## C2: positional experience merge -/

def c2Parsed : ParsedResume :=
  { experience :=
      [{ company := some "Acme", role := some "Dev", location := some "Seattle, WA",
         dates := some "Jan 2020 - Present", bullets := ["did a"] },
       { company := some "Beta", role := some "Eng", location := some "Austin, TX",
         dates := some "Feb 2018 - Dec 2019", bullets := ["did b"] }] }

def c2Overlay : OptimizedSections :=
  { experience := some [{ company := some "Acme", role := some "Dev",
                          bullets := ["did a better"] }] }

/-! ## C4: present-but-empty overlay sections -/

def c4Parsed : ParsedResume :=
  { contact := { name := some "Erik Chan", email := some "erikchan1010@gmail.com" },
    skills := ["TypeScript"] }

def c4Overlay : OptimizedSections := { contact := some {} }

/-! ## C5: the payload always contains every capped key -/

def payloadContact (parsed : ParsedResume) (optimized : Option OptimizedSections) : Contact :=
  (optimized.bind (·.contact)).getD parsed.contact

def payloadEducation (parsed : ParsedResume) (optimized : Option OptimizedSections) :
    List EducationEntry :=
  (optimized.bind (·.education)).getD parsed.education

def payloadExperience (parsed : ParsedResume) (optimized : Option OptimizedSections) :
    List OptExperienceEntry :=
  (optimized.bind (·.experience)).getD (parsed.experience.map ExperienceEntry.toOverlay)

def payloadSkills (parsed : ParsedResume) (optimized : Option OptimizedSections) : List String :=
  (optimized.bind (·.skills)).getD parsed.skills

def eduAt (parsed : ParsedResume) (optimized : Option OptimizedSections) (i : Nat) :
    Option EducationEntry :=
  (payloadEducation parsed optimized)[i]? <|> parsed.education[i]?

def expBulletsAt (parsed : ParsedResume) (optimized : Option OptimizedSections) (i : Nat) :
    List String :=
  ((((payloadExperience parsed optimized)[i]?).map (·.bullets))
    <|> ((parsed.experience[i]?).map (·.bullets))).getD []

def projBulletsAt (parsed : ParsedResume) (i : Nat) : List String :=
  ((parsed.projects[i]?).map (·.bullets)).getD []

/-- `buildTemplatePayload` with the capped loops unrolled and every key a
string literal. Definitionally equal to `buildTemplatePayload`
(see `buildTemplatePayload_eq`). -/
def buildTemplatePayloadE (parsed : ParsedResume) (optimized : Option OptimizedSections) :
    List (String × String) :=
  let contact := payloadContact parsed optimized
  let experience := payloadExperience parsed optimized
  let e0 := eduAt parsed optimized 0
  let e1 := eduAt parsed optimized 1
  let x0 := experience[0]?
  let x1 := experience[1]?
  let x2 := experience[2]?
  let o0 := parsed.experience[0]?
  let o1 := parsed.experience[1]?
  let o2 := parsed.experience[2]?
  let b0 := expBulletsAt parsed optimized 0
  let b1 := expBulletsAt parsed optimized 1
  let b2 := expBulletsAt parsed optimized 2
  let p0 := parsed.projects[0]?
  let p1 := parsed.projects[1]?
  let q0 := projBulletsAt parsed 0
  let q1 := projBulletsAt parsed 1
  [("contact.name", contact.name.getD ""),
   ("contact.phone", contact.phone.getD ""),
   ("contact.email", contact.email.getD ""),
   ("contact.location", contact.location.getD ""),
   ("contact.linkedin", contact.linkedin.getD ""),
   ("skills", String.intercalate ", " (payloadSkills parsed optimized)),
   ("education.0.school", (e0.bind (·.school)).getD ""),
   ("education.0.degree", (e0.bind (·.degree)).getD ""),
   ("education.0.dates", (e0.bind (·.dates)).getD ""),
   ("education.0.gpa", (e0.bind (·.gpa)).getD ""),
   ("education.1.school", (e1.bind (·.school)).getD ""),
   ("education.1.degree", (e1.bind (·.degree)).getD ""),
   ("education.1.dates", (e1.bind (·.dates)).getD ""),
   ("education.1.gpa", (e1.bind (·.gpa)).getD ""),
   ("experience.0.company", ((x0.bind (·.company)) <|> (o0.bind (·.company))).getD ""),
   ("experience.0.role", ((x0.bind (·.role)) <|> (o0.bind (·.role))).getD ""),
   ("experience.0.location", (o0.bind (·.location)).getD ""),
   ("experience.0.dates", (o0.bind (·.dates)).getD ""),
   ("experience.0.subheader", ((x0.bind (·.subheader)) <|> (o0.bind (·.subheader))).getD ""),
   ("experience.0.bullet.0", b0[0]?.getD ""),
   ("experience.0.bullet.1", b0[1]?.getD ""),
   ("experience.0.bullet.2", b0[2]?.getD ""),
   ("experience.0.bullet.3", b0[3]?.getD ""),
   ("experience.1.company", ((x1.bind (·.company)) <|> (o1.bind (·.company))).getD ""),
   ("experience.1.role", ((x1.bind (·.role)) <|> (o1.bind (·.role))).getD ""),
   ("experience.1.location", (o1.bind (·.location)).getD ""),
   ("experience.1.dates", (o1.bind (·.dates)).getD ""),
   ("experience.1.subheader", ((x1.bind (·.subheader)) <|> (o1.bind (·.subheader))).getD ""),
   ("experience.1.bullet.0", b1[0]?.getD ""),
   ("experience.1.bullet.1", b1[1]?.getD ""),
   ("experience.1.bullet.2", b1[2]?.getD ""),
   ("experience.1.bullet.3", b1[3]?.getD ""),
   ("experience.2.company", ((x2.bind (·.company)) <|> (o2.bind (·.company))).getD ""),
   ("experience.2.role", ((x2.bind (·.role)) <|> (o2.bind (·.role))).getD ""),
   ("experience.2.location", (o2.bind (·.location)).getD ""),
   ("experience.2.dates", (o2.bind (·.dates)).getD ""),
   ("experience.2.subheader", ((x2.bind (·.subheader)) <|> (o2.bind (·.subheader))).getD ""),
   ("experience.2.bullet.0", b2[0]?.getD ""),
   ("experience.2.bullet.1", b2[1]?.getD ""),
   ("experience.2.bullet.2", b2[2]?.getD ""),
   ("experience.2.bullet.3", b2[3]?.getD ""),
   ("projects.0.title", (p0.bind (·.title)).getD ""),
   ("projects.0.bullet.0", q0[0]?.getD ""),
   ("projects.0.bullet.1", q0[1]?.getD ""),
   ("projects.1.title", (p1.bind (·.title)).getD ""),
   ("projects.1.bullet.0", q1[0]?.getD ""),
   ("projects.1.bullet.1", q1[1]?.getD "")]

/-- `{{key}}` at the character-list level. -/
def phL (kd : Chars) : Chars := lbrace :: lbrace :: (kd ++ [rbrace, rbrace])

/-! ## The template generation loop (`scripts/generate-template.ts`) -/

/-- `replaceFirst` from `scripts/generate-template.ts` at the `String`
level. -/
def replaceFirst (str fromStr toStr : String) : String :=
  String.mk (replaceFirstL fromStr.data toStr.data str.data)

/-- The replacement loop of `main` in `scripts/generate-template.ts`:
apply `replaceFirst` for each pair in order, skipping empty sources. -/
def runReplacements (docXml : String) (pairs : List (String × String)) : String :=
  pairs.foldl (fun d pr => if pr.1.data.isEmpty then d else replaceFirst d pr.1 pr.2) docXml

/-- Character-list version of `runReplacements`. -/
def runReplacementsL (doc : Chars) (pairs : List (Chars × Chars)) : Chars :=
  pairs.foldl (fun d pr => if pr.1.isEmpty then d else replaceFirstL pr.1 pr.2 d) doc

/-- The placeholder token `{{path}}`. -/
def ph (path : String) : String := "\x7b\x7b" ++ path ++ "\x7d\x7d"

/-- One conditional `pairs.push([value, token])` from
`buildReplacementsInDocumentOrder`: emits the pair only when the value is
present and truthy (non-empty). -/
def optPair (v : Option String) (tok : String) : List (String × String) :=
  match v with
  | some s => if s = "" then [] else [(s, tok)]
  | none => []

/-- The ordered (value, placeholder path) specifications walked by
`buildReplacementsInDocumentOrder` in `scripts/generate-template.ts`, in
document order. -/
def repSpecs (parsed : ParsedResume) : List (Option String × String) :=
  [(parsed.contact.name, "contact.name"),
   (parsed.contact.email, "contact.email"),
   (parsed.contact.phone, "contact.phone"),
   (parsed.contact.location, "contact.location"),
   (parsed.contact.linkedin, "contact.linkedin")]
  ++ parsed.education.enum.flatMap (fun ie =>
      [(ie.2.school, "education." ++ toString ie.1 ++ ".school"),
       (ie.2.degree, "education." ++ toString ie.1 ++ ".degree"),
       (ie.2.dates, "education." ++ toString ie.1 ++ ".dates"),
       (ie.2.gpa, "education." ++ toString ie.1 ++ ".gpa")])
  ++ parsed.experience.enum.flatMap (fun ie =>
      [(ie.2.company, "experience." ++ toString ie.1 ++ ".company"),
       (ie.2.location, "experience." ++ toString ie.1 ++ ".location"),
       (ie.2.dates, "experience." ++ toString ie.1 ++ ".dates"),
       (ie.2.role, "experience." ++ toString ie.1 ++ ".role"),
       (ie.2.subheader, "experience." ++ toString ie.1 ++ ".subheader")]
      ++ ie.2.bullets.enum.map (fun jb =>
          (some jb.2, "experience." ++ toString ie.1 ++ ".bullet." ++ toString jb.1)))
  ++ parsed.projects.enum.flatMap (fun ip =>
      [(ip.2.title, "projects." ++ toString ip.1 ++ ".title")]
      ++ ip.2.bullets.enum.map (fun jb =>
          (some jb.2, "projects." ++ toString ip.1 ++ ".bullet." ++ toString jb.1)))
  ++ [(some (String.intercalate ", " parsed.skills), "skills")]

/-- `buildReplacementsInDocumentOrder` from `scripts/generate-template.ts`. -/
def buildReplacementsInDocumentOrder (parsed : ParsedResume) : List (String × String) :=
  (repSpecs parsed).flatMap (fun sv => optPair sv.1 (ph sv.2))

/-! ## C6: idempotence of the injector's first-occurrence replacement -/

def c6Parsed : ParsedResume := { contact := { name := some "Ada" } }

def c6WitnessParsed : ParsedResume :=
  { contact := { name := some "Ada Lovelace" }, skills := ["Lean"] }

/-! ## Template population (`src/lib/template-populate.ts`, populate side) -/

/-- `escapeXmlText` from `src/lib/template-populate.ts`: five sequential
global replacements, in source order `&`, `<`, `>`, `"`, `'`. -/
def escapeXmlText (s : String) : String :=
  let s1 := replaceAllL ['&'] ("&amp;".data) s.data
  let s2 := replaceAllL ['<'] ("&lt;".data) s1
  let s3 := replaceAllL ['>'] ("&gt;".data) s2
  let s4 := replaceAllL [quot] ("&quot;".data) s3
  let s5 := replaceAllL [apos] ("&apos;".data) s4
  String.mk s5

/-- The unconditional raw-text fallback pass of `populateTemplate`
(`src/lib/template-populate.ts` lines 281–297): for each payload key in
order, when `{{key}}` occurs in the document text, replace every occurrence
by the XML-escaped value. -/
def rawFallbackPass (docXml : String) (payload : List (String × String)) : String :=
  payload.foldl (fun doc kv =>
    if occursIn (ph kv.1).data doc.data then
      String.mk (replaceAllL (ph kv.1).data (escapeXmlText kv.2).data doc.data)
    else doc) docXml

/-- `populateTemplate`'s effect on the document's text payload. Modelled
from the spec for the external first pass: spec 4.10's structured
`patchDocument` pass replaces the placeholder paragraphs it can reach with
the same XML-escaped values as the raw pass; since the second, in-repository
raw pass then unconditionally replaces every remaining `{{key}}` occurrence
with the identical escaped value, the combined effect on the text payload is
the raw fallback pass applied to the document text. -/
def populateTemplateText (docXml : String) (payload : List (String × String)) : String :=
  rawFallbackPass docXml payload

/-- A templated document, structurally: brace-free text chunks interleaved
with `{{key}}` placeholders. -/
inductive DocPiece where
  | chunk : String → DocPiece
  | slot : String → DocPiece
  deriving Repr, DecidableEq

def renderPiece : DocPiece → String
  | .chunk s => s
  | .slot k => ph k

def renderDocL : List DocPiece → Chars
  | [] => []
  | pc :: rest => (renderPiece pc).data ++ renderDocL rest

/-- Well-formedness of a piece: chunks and slot keys are brace-free. -/
def pieceBF : DocPiece → Bool
  | .chunk s => braceFree s.data
  | .slot k => braceFree k.data

/-- Substitution of every `{{k}}` slot by the chunk `v`. -/
def substSlot (k v : String) : DocPiece → DocPiece
  | .chunk s => .chunk s
  | .slot k' => if k' = k then .chunk v else .slot k'

/-- Piece-level effect of the raw fallback pass. -/
def applyAll (payload : List (String × String)) (pieces : List DocPiece) : List DocPiece :=
  payload.foldl (fun pcs kv => pcs.map (substSlot kv.1 (escapeXmlText kv.2))) pieces

/-! ## C3: the populate round trip -/

def c3Parsed : ParsedResume := { contact := { name := some "A & B" } }

/-! ## Hand-compiled regex matchers (`src/lib/resume-parser.ts`)

Each JavaScript regex used by the parser is compiled to an explicit
backtracking matcher in continuation-passing style: a matcher consumes a
prefix of the character list and hands the rest to its continuation;
greedy quantifiers try the longest consumption first, and alternations are
tried in source order, exactly as the JavaScript engine does. -/

/-- Caseless ASCII character comparison (the `i` flag). -/
def eqCi (a b : Char) : Bool := a.toLower = b.toLower

/-- Match a literal at the head (caseless when `ci`); returns the rest. -/
def matchLit (ci : Bool) : Chars → Chars → Option Chars
  | [], s => some s
  | _ :: _, [] => none
  | p :: ps, c :: cs => if (if ci then eqCi p c else p = c) then matchLit ci ps cs else none

/-- Greedy `cls*`: consume a maximal run, backtracking to shorter runs when
the continuation fails. -/
def classStar (cls : Char → Bool) : Chars → (Chars → Option α) → Option α
  | [], k => k []
  | c :: t, k => if cls c then (classStar cls t k) <|> k (c :: t) else k (c :: t)

/-- Greedy `cls+`. -/
def classPlus (cls : Char → Bool) (s : Chars) (k : Chars → Option α) : Option α :=
  match s with
  | [] => none
  | c :: t => if cls c then classStar cls t k else none

/-- Exactly `n` characters of the class. -/
def classRepeat (cls : Char → Bool) : Nat → Chars → (Chars → Option α) → Option α
  | 0, s, k => k s
  | _ + 1, [], _ => none
  | n + 1, c :: t, k => if cls c then classRepeat cls n t k else none

/-- Greedy optional single character (`x?`). -/
def optChar (ch : Char) (s : Chars) (k : Chars → Option α) : Option α :=
  match s with
  | c :: t => if c = ch then (k t) <|> k (c :: t) else k (c :: t)
  | [] => k []

/-- Greedy optional single character, caseless. -/
def optCharCi (ch : Char) (s : Chars) (k : Chars → Option α) : Option α :=
  match s with
  | c :: t => if eqCi c ch then (k t) <|> k (c :: t) else k (c :: t)
  | [] => k []

/-- First (leftmost) position where the matcher succeeds; returns its
result. -/
def scanFor (m : Chars → Option α) : Chars → Option α
  | [] => m []
  | c :: t => (m (c :: t)) <|> scanFor m t

/-- First (leftmost) match; returns the matched prefix and the rest after
it. -/
def scanMatch (m : Chars → Option Chars) : Chars → Option (Chars × Chars)
  | [] =>
    match m [] with
    | some r => some ([], r)
    | none => none
  | c :: t =>
    match m (c :: t) with
    | some r => some ((c :: t).take ((c :: t).length - r.length), r)
    | none => scanMatch m t

/-- The dash class `[-–—]`. -/
def isDashChar (c : Char) : Bool := c = '-' || c = Char.ofNat 8211 || c = Char.ofNat 8212

/-- `EXPERIENCE_DATE_REGEX` / `DATE_RANGE_REGEX`
(`/(\w+\s+\d{4}\s*[-–—]\s*(?:Present|\w+\s+\d{4}))/i`) at one position. -/
def expDateAt (s : Chars) : Option Chars :=
  classPlus isWordChar s (fun s1 =>
  classPlus isJsWs s1 (fun s2 =>
  classRepeat isDigitChar 4 s2 (fun s3 =>
  classStar isJsWs s3 (fun s4 =>
  match s4 with
  | c :: s5 =>
    if isDashChar c then
      classStar isJsWs s5 (fun s6 =>
        (matchLit true "present".data s6) <|>
        (classPlus isWordChar s6 (fun s7 =>
          classPlus isJsWs s7 (fun s8 =>
          classRepeat isDigitChar 4 s8 (fun s9 => some s9)))))
    else none
  | [] => none))))

/-- The education dates regex `/(\w+\s+\d{4}\s*[-–—]\s*(?:\w+\s+)?\d{4})/`
at one position. -/
def eduDateAt (s : Chars) : Option Chars :=
  classPlus isWordChar s (fun s1 =>
  classPlus isJsWs s1 (fun s2 =>
  classRepeat isDigitChar 4 s2 (fun s3 =>
  classStar isJsWs s3 (fun s4 =>
  match s4 with
  | c :: s5 =>
    if isDashChar c then
      classStar isJsWs s5 (fun s6 =>
        (classPlus isWordChar s6 (fun s7 =>
          classPlus isJsWs s7 (fun s8 =>
          classRepeat isDigitChar 4 s8 (fun s9 => some s9)))) <|>
        (classRepeat isDigitChar 4 s6 (fun s9 => some s9)))
    else none
  | [] => none))))

/-- `/GPA[:\s]*([\d.]+)/i` at one position; returns capture group 1. -/
def gpaAt (s : Chars) : Option Chars :=
  match matchLit true "gpa".data s with
  | none => none
  | some s1 =>
    classStar (fun c => c = ':' || isJsWs c) s1 (fun s2 =>
      match classPlus (fun c => isDigitChar c || c = '.') s2 (fun rest => some rest) with
      | some rest => some (s2.take (s2.length - rest.length))
      | none => none)

/-- One of `B\.?S\.?`, `M\.?S\.?`, `B\.?A\.?`, `M\.?A\.?` (caseless),
parameterized by the two letters. -/
def matchBSLike (a b : Char) (s : Chars) : Option Chars :=
  match s with
  | c :: t =>
    if eqCi c a then
      optChar '.' t (fun s1 =>
        match s1 with
        | d :: t2 => if eqCi d b then optChar '.' t2 some else none
        | [] => none)
    else none
  | [] => none

/-- `Bachelor'?s?` / `Master'?s?` (caseless). -/
def matchDegreeWord (w : String) (s : Chars) : Option Chars :=
  match matchLit true w.data s with
  | some s1 => optChar apos s1 (fun s2 => optCharCi 's' s2 some)
  | none => none

/-- The alternation head of the degree regex, in source order. -/
def degAlt (s : Chars) : Option Chars :=
  (matchBSLike 'b' 's' s) <|> (matchBSLike 'm' 's' s) <|> (matchBSLike 'b' 'a' s)
  <|> (matchBSLike 'm' 'a' s) <|> (matchLit true "phd".data s)
  <|> (matchDegreeWord "bachelor" s) <|> (matchDegreeWord "master" s)

/-- The degree regex
`/(?:B\.?S\.?|M\.?S\.?|B\.?A\.?|M\.?A\.?|PhD|Bachelor'?s?|Master'?s?)\s*(?:in\s+[\w\s]+)?/i`
at one position. -/
def degreeAt (s : Chars) : Option Chars :=
  match degAlt s with
  | none => none
  | some s1 =>
    classStar isJsWs s1 (fun s2 =>
      (match matchLit true "in".data s2 with
       | some s3 =>
         classPlus isJsWs s3 (fun s4 =>
           classPlus (fun c => isWordChar c || isJsWs c) s4 some)
       | none => none) <|> some s2)

/-- The lookahead `(?=\s*[|\n]|$)` (no `m` flag): a possibly empty
whitespace run followed by `|` or `\n`, or end of input. -/
def wsThenBar : Chars → Bool
  | [] => false
  | c :: t => if c = '|' || c = '\n' then true else if isJsWs c then wsThenBar t else false

def eduLookahead (s : Chars) : Bool := s.isEmpty || wsThenBar s

def notBarNl (c : Char) : Bool := !(c = '|' || c = '\n')

def schoolKw (s : Chars) : Option Chars :=
  (matchLit true "university".data s) <|> (matchLit true "college".data s)
  <|> (matchLit true "institute".data s)

/-- The school regex
`/(?:University of [^|\n]+|[\w\s]+(?:University|College|Institute)(?:\s+of\s+[\w\s]+)?)(?=\s*[|\n]|$)/i`
at one position. -/
def schoolAt (s : Chars) : Option Chars :=
  (match matchLit true "university of ".data s with
   | some s1 =>
     classPlus notBarNl s1 (fun rest => if eduLookahead rest then some rest else none)
   | none => none)
  <|>
  classPlus (fun c => isWordChar c || isJsWs c) s (fun s1 =>
    match schoolKw s1 with
    | none => none
    | some s2 =>
      (classPlus isJsWs s2 (fun s3 =>
        match matchLit true "of".data s3 with
        | some s4 =>
          classPlus isJsWs s4 (fun s5 =>
            classPlus (fun c => isWordChar c || isJsWs c) s5 (fun s6 =>
              if eduLookahead s6 then some s6 else none))
        | none => none))
      <|> (if eduLookahead s2 then some s2 else none))

/-- JavaScript `.` (no `s` flag): anything but a line terminator. -/
def isDotChar (c : Char) : Bool := !(c = '\n' || c = '\r')

/-- The strip regex `/\s*\|\s*GPA.*$/i` (no `m` flag) at one position. -/
def barGpaAt (s : Chars) : Bool :=
  (classStar isJsWs s (fun s1 =>
    match s1 with
    | c :: s2 =>
      if c = '|' then
        classStar isJsWs s2 (fun s3 =>
          match matchLit true "gpa".data s3 with
          | some s4 => if s4.all isDotChar then some s4 else none
          | none => none)
      else none
    | [] => none) : Option Chars).isSome

/-- `str.replace(/\s*\|\s*GPA.*$/i, "")`: delete from the leftmost match to
the end. -/
def stripBarGpa : Chars → Chars
  | [] => []
  | c :: t => if barGpaAt (c :: t) then [] else c :: stripBarGpa t

/-- One education keyword of the section-splitting lookahead at one
position (caseless). -/
def eduKwAt (s : Chars) : Bool :=
  (matchLit true "university".data s).isSome || (matchLit true "college".data s).isSome
  || (matchLit true "institute".data s).isSome || (matchLit true "school".data s).isSome
  || (matchLit true "bachelor".data s).isSome || (matchLit true "master".data s).isSome
  || (matchLit true "phd".data s).isSome
  || (matchBSLike 'b' 's' s).isSome || (matchBSLike 'm' 's' s).isSome
  || (matchBSLike 'b' 'a' s).isSome || (matchBSLike 'm' 'a' s).isSome

def eduKwSearch : Chars → Bool
  | [] => false
  | c :: t => eduKwAt (c :: t) || (if isDotChar c then eduKwSearch t else false)

/-- The `educationStart` lookahead
`(?=[A-Z][a-z].*(?:University|…|M\.?A\.?))` with the `i` flag (so both
character classes accept any ASCII letter). -/
def eduStartLookahead : Chars → Bool
  | c1 :: c2 :: rest => isAsciiLetter c1 && isAsciiLetter c2 && eduKwSearch rest
  | _ => false

/-- `text.split(educationStart)`: split at every newline whose following
line triggers the lookahead; the newline is consumed. -/
def splitEduBlocks : Chars → List Chars
  | [] => [[]]
  | c :: t =>
    if c = '\n' && eduStartLookahead t then [] :: splitEduBlocks t
    else
      match splitEduBlocks t with
      | [] => [[c]]
      | h :: r => (c :: h) :: r

/-- The entry built from one non-empty trimmed block of the education
section. -/
def eduEntryOfBlock (t : Chars) : EducationEntry :=
  let datesMatch := scanMatch eduDateAt t
  let gpaMatch := scanFor gpaAt t
  let degreeMatch := scanMatch degreeAt t
  let degree : Option Chars :=
    match degreeMatch with
    | some m => let d := trimChars m.1; if d.isEmpty then none else some d
    | none => none
  let schoolFromMatch : Option Chars :=
    match scanMatch schoolAt t with
    | some m => let sc := trimChars (stripBarGpa m.1); if sc.isEmpty then none else some sc
    | none => none
  let school : Option Chars :=
    match schoolFromMatch with
    | some sc => some sc
    | none =>
      let firstLine := trimChars ((splitOnChar '\n' t).headD [])
      if !firstLine.isEmpty && !(scanFor expDateAt firstLine).isSome
          && !(matchLit true "gpa".data firstLine).isSome then
        (let sc := trimChars (stripBarGpa firstLine); if sc.isEmpty then none else some sc)
      else none
  { rawText := some (String.mk t)
    school := school.map String.mk
    degree := degree.map String.mk
    dates := datesMatch.map (fun m => String.mk m.1)
    gpa := gpaMatch.map String.mk }

/-- `parseEducationBlock` from `src/lib/resume-parser.ts`. -/
def parseEducationBlock (text : String) : List EducationEntry :=
  let blocks := splitEduBlocks text.data
  let entries := blocks.filterMap (fun b =>
    let t := trimChars b
    if t.isEmpty then none else some (eduEntryOfBlock t))
  if entries.isEmpty && !(trimChars text.data).isEmpty then
    [{ rawText := some (String.mk (trimChars text.data)) }]
  else entries

/-! ## Experience extractor (resume-parser.ts) -/

/-- Split a line at its first `|` (JavaScript `indexOf("|")` + `slice`);
`none` when the line has no bar. -/
def splitBar : Chars → Option (Chars × Chars)
  | [] => none
  | c :: t =>
    if c = '|' then some ([], t)
    else (splitBar t).map (fun p => (c :: p.1, p.2))

/-- `split(/\n(?=...)/)`: split at a newline whose right context satisfies
`cond`; the newline itself is consumed. -/
def splitOnNlIf (cond : Chars → Bool) : Chars → List Chars
  | [] => [[]]
  | c :: t =>
    if c = '\n' && cond t then [] :: splitOnNlIf cond t
    else
      match splitOnNlIf cond t with
      | [] => [[c]]
      | h :: r => (c :: h) :: r

/-- `\w+\s+\d{4}\s*[-–—]` at one position (tail of the tab-date split
lookahead). -/
def tabDatePat (s : Chars) : Option Chars :=
  classPlus isWordChar s (fun s1 =>
  classPlus isJsWs s1 (fun s2 =>
  classRepeat isDigitChar 4 s2 (fun s3 =>
  classStar isJsWs s3 (fun s4 =>
  match s4 with
  | c :: s5 => if isDashChar c then some s5 else none
  | [] => none))))

/-- Lookahead of `EXPERIENCE_JOB_SPLIT_TAB_DATE`
(`(?=[^\n]*\t\w+\s+\d{4}\s*[-–—])`): some tab on the current line is
followed by a word, whitespace, a four-digit year and a dash. -/
def tabDateLookahead : Chars → Bool
  | [] => false
  | c :: t =>
    if c = '\n' then false
    else if c = '\t' then (tabDatePat t).isSome || tabDateLookahead t
    else tabDateLookahead t

/-- `\s*\|` from a position: skip whitespace (newlines included) up to a
bar. -/
def wsThenPipe : Chars → Bool
  | [] => false
  | c :: t => if c = '|' then true else if isJsWs c then wsThenPipe t else false

/-- After the leading letter of `EXPERIENCE_JOB_SPLIT`'s lookahead:
`[^\n]{1,45}\n\s*\|` with at most `budget` further line characters. -/
def pipeScan : Nat → Chars → Bool
  | _, [] => false
  | 0, _ => false
  | budget + 1, c :: t =>
    if c = '\n' then false
    else
      match t with
      | d :: t2 => (d = '\n' && wsThenPipe t2) || pipeScan budget t
      | [] => false

/-- Lookahead of `EXPERIENCE_JOB_SPLIT`
(`(?=[A-Za-z][^\n]{1,45}\n\s*\|)`). -/
def pipeHeaderLookahead (s : Chars) : Bool :=
  match s with
  | c :: t => isAsciiLetter c && pipeScan 45 t
  | [] => false

/-- `ROLE_KEYWORDS`
(`/engineer|developer|lead|analyst|manager|designer|founder|architect/i`):
caseless substring search. -/
def roleKeywordsTest (s : Chars) : Bool :=
  (scanFor (fun r =>
    (matchLit true "engineer".data r) <|> (matchLit true "developer".data r) <|>
    (matchLit true "lead".data r) <|> (matchLit true "analyst".data r) <|>
    (matchLit true "manager".data r) <|> (matchLit true "designer".data r) <|>
    (matchLit true "founder".data r) <|> (matchLit true "architect".data r)) s).isSome

/-- `/\s*\|\s*$/` anchored at this position. -/
def barEndAt (s : Chars) : Bool :=
  (classStar isJsWs s (fun s1 =>
    match s1 with
    | c :: s2 =>
      if c = '|' then
        classStar isJsWs s2 (fun s3 => if s3.isEmpty then some s3 else none)
      else none
    | [] => none) : Option Chars).isSome

/-- `s.replace(/\s*\|\s*$/, "")`: drop a trailing `ws|ws` run (leftmost
match, which necessarily extends to the end). -/
def stripBarEnd : Chars → Chars
  | [] => []
  | c :: t => if barEndAt (c :: t) then [] else c :: stripBarEnd t

def isLetterOrWs (c : Char) : Bool := isAsciiLetter c || isJsWs c

/-- Match a caseless literal that must end the string. -/
def litEnd (w : String) (s : Chars) : Option Chars :=
  match matchLit true w.data s with
  | some r => if r.isEmpty then some r else none
  | none => none

/-- `/^[A-Za-z\s]+,\s*(?:[A-Z]{2}|Washington|California|NY|TX)$/i`. -/
def locPat1 (t : Chars) : Bool :=
  (classPlus isLetterOrWs t (fun s1 =>
    match s1 with
    | c :: s2 =>
      if c = ',' then
        classStar isJsWs s2 (fun s3 =>
          (classRepeat isAsciiLetter 2 s3 (fun s4 => if s4.isEmpty then some s4 else none))
          <|> litEnd "washington" s3 <|> litEnd "california" s3
          <|> litEnd "ny" s3 <|> litEnd "tx" s3)
      else none
    | [] => none) : Option Chars).isSome

/-- `/^[A-Za-z\s]+,\s*[A-Za-z\s]+$/`. -/
def locPat2 (t : Chars) : Bool :=
  (classPlus isLetterOrWs t (fun s1 =>
    match s1 with
    | c :: s2 =>
      if c = ',' then
        classStar isJsWs s2 (fun s3 =>
          classPlus isLetterOrWs s3 (fun s4 => if s4.isEmpty then some s4 else none))
      else none
    | [] => none) : Option Chars).isSome

/-- `looksLikeLocation`: strip a trailing bar, trim, then test the two
location shapes. -/
def looksLikeLocation (s : Chars) : Bool :=
  let t := trimChars (stripBarEnd s)
  locPat1 t || locPat2 t

/-- `\b` right after a token: boundary iff exactly one side is a word
character (end of input counts as non-word). -/
def boundaryAfter (endsWord : Bool) (rest : Chars) : Bool :=
  match rest with
  | [] => endsWord
  | c :: _ => endsWord != isWordChar c

/-- One alternative of the tech regex at a position, with its trailing
`\b`; `endsWord` says whether the token's last character is a word
character (`c#` ends in a non-word `#`). -/
def techTry (w : String) (endsWord : Bool) (s : Chars) : Bool :=
  match matchLit true w.data s with
  | some rest => boundaryAfter endsWord rest
  | none => false

/-- `(?:AWS|Python|React|Node|TypeScript|Go|Java|C#|SQL)\b` at one
position, alternatives in source order. -/
def techAltAt (s : Chars) : Bool :=
  techTry "aws" true s || techTry "python" true s || techTry "react" true s ||
  techTry "node" true s || techTry "typescript" true s || techTry "go" true s ||
  techTry "java" true s || techTry "c#" false s || techTry "sql" true s

/-- Scan for `\b(?:AWS|...|SQL)\b` (caseless); `prevIsWord` tracks the
character before the current position for the leading `\b` (every
alternative starts with a word character). -/
def techSearchGo (prevIsWord : Bool) : Chars → Bool
  | [] => false
  | c :: t => ((!prevIsWord) && techAltAt (c :: t)) || techSearchGo (isWordChar c) t

/-- `looksLikeTechOrSkills`: a comma anywhere, or a tech keyword between
word boundaries. -/
def looksLikeTechOrSkills (s : Chars) : Bool :=
  s.contains ',' || techSearchGo false s

/-- The bullet-marker class `[•‣◦⁃∙\-\*\d+\.]`. -/
def bulletStartChar (c : Char) : Bool :=
  c = Char.ofNat 0x2022 || c = Char.ofNat 0x2023 || c = Char.ofNat 0x25E6 ||
  c = Char.ofNat 0x2043 || c = Char.ofNat 0x2219 || c = '-' || c = '*' ||
  isDigitChar c || c = '+' || c = '.'

/-- `line.replace(/^[class]\s*/, "")`: drop one marker character and the
whitespace run after it. -/
def cleanBullet (l : Chars) : Chars :=
  match l with
  | c :: t => if bulletStartChar c then t.dropWhile isJsWs else l
  | [] => []

/-- `block.split(/\n/).map((l) => l.trim()).filter(Boolean)`. -/
def expLines (s : Chars) : List Chars :=
  ((splitOnChar '\n' s).map trimChars).filter (fun l => !l.isEmpty)

/-- `extractBullets`: per line, strip a bullet marker and keep the
non-empty results; when no line survives, fall back to the raw trimmed
lines. -/
def extractBullets (text : Chars) : List Chars :=
  let lines := expLines text
  let bullets := lines.filterMap (fun l =>
    let cleaned := trimChars (cleanBullet l)
    if cleaned.isEmpty then none else some cleaned)
  if bullets.length > 0 then bullets else lines.filter (fun l => !l.isEmpty)

/-- `rest.join("\\n")`. -/
def joinNl : List Chars → Chars
  | [] => []
  | [l] => l
  | l :: r => l ++ '\n' :: joinNl r

/-- `stripExperienceHeaderLines`: drop the first line when it matches the
trimmed header line, and also the second when it carries a bar whose right
part looks like tech/skills or whose left part carries a role keyword. -/
def stripExperienceHeaderLines (block firstLine : Chars) : Chars :=
  let lines := expLines block
  if lines.isEmpty then block
  else
    let skipCount :=
      if lines.headD [] = trimChars firstLine then
        match lines[1]? with
        | some l1 =>
          (match splitBar l1 with
           | some lr =>
             if looksLikeTechOrSkills (trimChars lr.2)
                || roleKeywordsTest (trimChars lr.1) then 2 else 1
           | none => 1)
        | none => 1
      else 0
    joinNl (lines.drop skipCount)

/-- `/^[A-Z\s]+$/` (case-sensitive). -/
def allCapsWs (l : Chars) : Bool :=
  !l.isEmpty && l.all (fun c => isAsciiUpper c || isJsWs c)

/-- `/^[A-Za-z\s]+,?\s*$/i`. -/
def shortLocLine (l : Chars) : Bool :=
  (classPlus isLetterOrWs l (fun s1 =>
    optChar ',' s1 (fun s2 =>
      classStar isJsWs s2 (fun s3 => if s3.isEmpty then some s3 else none))) :
    Option Chars).isSome

/-- `/^[A-Z]{2}$/` (case-sensitive). -/
def twoUpper (l : Chars) : Bool :=
  match l with
  | [a, b] => isAsciiUpper a && isAsciiUpper b
  | _ => false

/-- `/^(?:Washington|California)$/i`. -/
def isWaCaWord (l : Chars) : Bool :=
  (litEnd "washington" l <|> litEnd "california" l).isSome

/-- `/\s*,\s*$/` anchored at this position. -/
def commaEndAt (s : Chars) : Bool :=
  (classStar isJsWs s (fun s1 =>
    match s1 with
    | c :: s2 =>
      if c = ',' then
        classStar isJsWs s2 (fun s3 => if s3.isEmpty then some s3 else none)
      else none
    | [] => none) : Option Chars).isSome

/-- `replace(/\s*,\s*$/, ", ")`. -/
def replaceCommaEnd : Chars → Chars
  | [] => []
  | c :: t =>
    if commaEndAt (c :: t) then ',' :: ' ' :: [] else c :: replaceCommaEnd t

/-- `/,?\s*$/` anchored at this position (matches the empty string at the
end, so a replacement always fires). -/
def commaOptEndAt (s : Chars) : Bool :=
  (optChar ',' s (fun s1 =>
    classStar isJsWs s1 (fun s2 => if s2.isEmpty then some s2 else none)) :
    Option Chars).isSome

/-- `replace(/,?\s*$/, ", ")`. -/
def replaceCommaOptEnd : Chars → Chars
  | [] => ',' :: ' ' :: []
  | c :: t =>
    if commaOptEndAt (c :: t) then ',' :: ' ' :: [] else c :: replaceCommaOptEnd t

/-- The "City / WA on the next line" location backfill: the first
`i ∈ [1, min(length, 6))` whose line is letters-and-spaces with an
optional trailing comma and whose next line is a bare state word. -/
def locBackfill1 (lines : List Chars) : Option Chars :=
  ((List.range (min lines.length 6)).drop 1).findSome? (fun i =>
    let line := trimChars ((lines[i]?).getD [])
    let next := collapseWs (trimChars ((lines[i+1]?).getD []))
    if shortLocLine line && (twoUpper next || isWaCaWord next) then
      some (replaceCommaOptEnd (replaceCommaEnd line) ++ next)
    else none)

/-- Skip whitespace up to a newline or a bar. -/
def wsThenPipeOrNl : Chars → Bool
  | [] => false
  | c :: t =>
    if c = '\n' || c = '|' then true
    else if isJsWs c then wsThenPipeOrNl t
    else false

/-- `(?:\s*[\n|]|$)` with the `m` flag, at a position. -/
def locTerm (s : Chars) : Bool := s.isEmpty || wsThenPipeOrNl s

/-- Caseless literal followed by the location terminator. -/
def litLocTerm (w : String) (s : Chars) : Option Chars :=
  match matchLit true w.data s with
  | some r => if locTerm r then some r else none
  | none => none

/-- Group 1 of
`/([A-Za-z\s]+,\s*(?:[A-Z]{2}|Washington|California|NY|TX))(?:\s*[\n|]|$)/im`
at one position; the returned rest stops before the terminator so that the
matched prefix is exactly the capture. -/
def locInBlockAt (s : Chars) : Option Chars :=
  classPlus isLetterOrWs s (fun s1 =>
    match s1 with
    | c :: s2 =>
      if c = ',' then
        classStar isJsWs s2 (fun s3 =>
          (classRepeat isAsciiLetter 2 s3 (fun s4 => if locTerm s4 then some s4 else none))
          <|> litLocTerm "washington" s3 <|> litLocTerm "california" s3
          <|> litLocTerm "ny" s3 <|> litLocTerm "tx" s3)
      else none
    | [] => none)

/-- The mutable role/location/dates/subheader state of
`parseExperienceBlock`'s header scan. -/
structure ExpScan where
  role : Option Chars := none
  location : Option Chars := none
  dates : Option Chars := none
  subheader : Option Chars := none
  deriving Repr, DecidableEq

/-- One header line of `parseExperienceBlock`'s loop over
`lines.slice(1, 6)`. -/
def expHeaderStep (st : ExpScan) (line : Chars) : ExpScan :=
  match scanMatch expDateAt line with
  | some m => { st with dates := some m.1 }
  | none =>
    match splitBar line with
    | some lr =>
      let left := trimChars lr.1
      let right := trimChars lr.2
      if roleKeywordsTest left then
        { st with
            role := if st.role.isSome then st.role else some left,
            location := if looksLikeLocation right then some right else st.location }
      else if looksLikeLocation left then
        { st with
            location := some left,
            role := if roleKeywordsTest right then some right else st.role }
      else if looksLikeLocation right then
        { st with
            location := some right,
            role := if 0 < left.length && left.length < 60 then some left else st.role }
      else if looksLikeTechOrSkills right && roleKeywordsTest left then
        { st with role := some left, subheader := some right }
      else st
    | none =>
      if looksLikeLocation line then { st with location := some line }
      else if roleKeywordsTest line && line.length < 60 && !st.role.isSome then
        { st with role := some line }
      else st

/-- Drop empty-string options (JavaScript `x || undefined`). -/
def nonEmptyOpt (o : Option Chars) : Option String :=
  match o with
  | some v => if v.isEmpty then none else some (String.mk v)
  | none => none

/-- One job block of `parseExperienceBlock`'s main loop (after the
header-skip test has passed). -/
def expEntryOfLines (block : Chars) (lines : List Chars) (firstLine : Chars) :
    ExperienceEntry :=
  let parts := splitOnChar '\t' firstLine
  let firstPart := trimChars (parts.headD [])
  let datePartFromFirst := (parts[1]?).map trimChars
  let dates0 : Option Chars :=
    match datePartFromFirst with
    | some dp => if dp.isEmpty then none else (scanMatch expDateAt dp).map (fun m => m.1)
    | none => none
  let cl : Option Chars × Option Chars :=
    match splitBar firstPart with
    | some lr =>
      let left := trimChars lr.1
      let right := trimChars lr.2
      if looksLikeLocation right then
        (if left.length < 50 then some left else none, some right)
      else (if firstPart.length < 50 then some firstPart else none, none)
    | none => (if firstPart.length < 50 then some firstPart else none, none)
  let headerLines := (lines.drop 1).take 5
  let st := headerLines.foldl expHeaderStep
    { role := none, location := cl.2, dates := dates0, subheader := none }
  let location1 :=
    match st.location with
    | some l => some l
    | none => if 2 ≤ lines.length then locBackfill1 lines else none
  let dates1 :=
    match st.dates with
    | some d => some d
    | none => (scanMatch expDateAt block).map (fun m => m.1)
  let location2 :=
    match location1 with
    | some l => some l
    | none => (scanMatch locInBlockAt (block.take 400)).map (fun m => trimChars m.1)
  let bullets := extractBullets (stripExperienceHeaderLines block firstLine)
  { company :=
      match cl.1 with
      | some c => if c.length < 50 then some (String.mk c) else none
      | none => none
    role := nonEmptyOpt st.role
    location := nonEmptyOpt location2
    dates := nonEmptyOpt dates1
    subheader := nonEmptyOpt st.subheader
    bullets := (if bullets.length > 0 then bullets else []).map String.mk }

/-- One job block of `parseExperienceBlock`'s loop, `none` when the block
is skipped (`continue`). -/
def expEntryOfBlock (block : Chars) : Option ExperienceEntry :=
  let lines := expLines block
  match lines with
  | [] => none
  | firstLine :: _ =>
    if firstLine = "WORK EXPERIENCE".data || firstLine = "EXPERIENCE".data
       || allCapsWs firstLine then none
    else some (expEntryOfLines block lines firstLine)

/-- `parseExperienceBlock`: normalise line endings, split into job blocks
(tab-date split, else pipe-header split), build an entry per surviving
block, with a whole-text fallback entry when none survive. -/
def parseExperienceBlock (text : String) : List ExperienceEntry :=
  let normalized := replaceAllL ['\r'] ['\n'] (replaceAllL ['\r', '\n'] ['\n'] text.data)
  let jobBlocks0 :=
    (splitOnNlIf tabDateLookahead normalized).filter (fun s => !(trimChars s).isEmpty)
  let jobBlocks :=
    if jobBlocks0.length ≤ 1 then
      (splitOnNlIf pipeHeaderLookahead normalized).filter (fun s => !(trimChars s).isEmpty)
    else jobBlocks0
  let entries := jobBlocks.filterMap expEntryOfBlock
  if entries.isEmpty && !(trimChars text.data).isEmpty then
    let bullets := extractBullets text.data
    [{ bullets :=
        if bullets.length > 0 then bullets.map String.mk
        else [String.mk (trimChars text.data)] }]
  else entries

/-- The experience block refuting C7: the extractor consumes the dates
line and the role line, but only the company line is stripped before
bullet extraction. -/
def c7Text : String :=
  "Acme\nJan 2020 - Present\nSoftware Engineer | AWS, SQL\nDid things"

/-- The entry `parseExperienceBlock` produces for `c7Text`. -/
def c7Entry : ExperienceEntry :=
  { company := some "Acme", role := some "Software Engineer",
    location := some "AWS, SQL", dates := some "Jan 2020 - Present",
    subheader := none,
    bullets := ["Jan 2020 - Present", "Software Engineer | AWS, SQL", "Did things"] }

theorem replaceAllGo_fuel (pat rep : Chars) :
    ∀ f1 f2 s, s.length ≤ f1 → s.length ≤ f2 →
      replaceAllGo pat rep f1 s = replaceAllGo pat rep f2 s := by
  intro f1
  induction f1 with
  | zero =>
    intro f2 s h1 h2
    have hnil : s = [] := List.eq_nil_of_length_eq_zero (Nat.le_zero.mp h1)
    subst hnil
    cases f2 <;> rfl
  | succ n ihn =>
    intro f2 s h1 h2
    cases s with
    | nil => cases f2 <;> rfl
    | cons c t =>
      cases f2 with
      | zero => simp at h2
      | succ m =>
        rw [replaceAllGo, replaceAllGo]
        by_cases hsw : startsWith pat (c :: t) = true
        · rw [if_pos hsw, if_pos hsw]
          have h1' : (t.drop (pat.length - 1)).length ≤ n := by
            have := List.length_drop (pat.length - 1) t
            simp only [List.length_cons] at h1
            omega
          have h2' : (t.drop (pat.length - 1)).length ≤ m := by
            have := List.length_drop (pat.length - 1) t
            simp only [List.length_cons] at h2
            omega
          rw [ihn m _ h1' h2']
        · rw [if_neg hsw, if_neg hsw]
          have h1' : t.length ≤ n := by
            simp only [List.length_cons] at h1
            omega
          have h2' : t.length ≤ m := by
            simp only [List.length_cons] at h2
            omega
          rw [ihn m t h1' h2']

theorem replaceAllL_nil (pat rep : Chars) : replaceAllL pat rep [] = [] := rfl

theorem replaceAllL_cons (pat rep : Chars) (c : Char) (t : Chars) :
    replaceAllL pat rep (c :: t)
      = if startsWith pat (c :: t) then rep ++ replaceAllL pat rep (t.drop (pat.length - 1))
        else c :: replaceAllL pat rep t := by
  rw [replaceAllL, List.length_cons, replaceAllGo]
  by_cases hsw : startsWith pat (c :: t) = true
  · rw [if_pos hsw, if_pos hsw, replaceAllL]
    have hlen : (t.drop (pat.length - 1)).length ≤ t.length := by
      have := List.length_drop (pat.length - 1) t
      omega
    rw [replaceAllGo_fuel pat rep t.length (t.drop (pat.length - 1)).length _ hlen le_rfl]
  · rw [if_neg hsw, if_neg hsw, replaceAllL]

/-! ## Lemmas about the helpers -/

theorem mem_addToken (acc : List String) (x t : String) :
    t ∈ addToken acc x ↔ t ∈ acc ∨ t = x := by
  unfold addToken
  by_cases h : x ∈ acc
  · simp only [if_pos h]
    constructor
    · exact fun ht => Or.inl ht
    · rintro (ht | rfl)
      · exact ht
      · exact h
  · simp [if_neg h]

theorem mem_foldl_addToken (l : List String) (acc : List String) (t : String) :
    t ∈ l.foldl addToken acc ↔ t ∈ acc ∨ t ∈ l := by
  induction l generalizing acc with
  | nil => simp
  | cons x xs ih =>
    simp only [List.foldl_cons, ih, mem_addToken, List.mem_cons]
    tauto

theorem mem_toTokenSet (l : List String) (t : String) :
    t ∈ toTokenSet l ↔ t ∈ l := by
  unfold toTokenSet
  rw [mem_foldl_addToken]
  simp

theorem compareKeywords_foldl (jobTokens resumeTokens : List String)
    (acc : List String × List String) :
    jobTokens.foldl
      (fun (mm : List String × List String) t =>
        if t ∈ resumeTokens then (mm.1, mm.2 ++ [t]) else (mm.1 ++ [t], mm.2))
      acc
    = (acc.1 ++ jobTokens.filter (fun t => decide (t ∉ resumeTokens)),
       acc.2 ++ jobTokens.filter (fun t => decide (t ∈ resumeTokens))) := by
  induction jobTokens generalizing acc with
  | nil => simp
  | cons x xs ih =>
    simp only [List.foldl_cons]
    by_cases hx : x ∈ resumeTokens
    · rw [if_pos hx, ih]
      simp [List.filter_cons, hx]
    · rw [if_neg hx, ih]
      simp [List.filter_cons, hx]

/-! ## C1: token-mode comparison partitions the job's token set -/

/-- **C1.** For every resume and job-description text, `compareKeywords`
partitions the token set of the job description: a token is in
`matchedKeywords` or in `missingKeywords` exactly when it is a token of the
job description, no token is in both lists, and every token of the job
description has length `> 2` and is not purely numeric. -/
theorem compareKeywords_partition (resume : ParsedResume) (jobDescription : String) :
    (∀ t : String,
      (t ∈ (compareKeywords resume jobDescription).matchedKeywords ∨
       t ∈ (compareKeywords resume jobDescription).missingKeywords)
      ↔ t ∈ tokenize jobDescription)
    ∧ (∀ t : String,
      ¬ (t ∈ (compareKeywords resume jobDescription).matchedKeywords ∧
         t ∈ (compareKeywords resume jobDescription).missingKeywords))
    ∧ (∀ t ∈ tokenize jobDescription,
         2 < t.length ∧ ¬ (t.data ≠ [] ∧ t.data.all isDigitChar)) := by
  refine ⟨?_, ?_, ?_⟩
  · intro t
    simp only [compareKeywords, compareKeywords_foldl, List.nil_append]
    simp only [List.mem_filter, decide_eq_true_eq]
    constructor
    · rintro (⟨ht, _⟩ | ⟨ht, _⟩) <;> exact ht
    · intro ht
      by_cases hr : t ∈ tokenize (resumeText resume)
      · exact Or.inl ⟨ht, by simpa using hr⟩
      · exact Or.inr ⟨ht, by simpa using hr⟩
  · intro t
    simp only [compareKeywords, compareKeywords_foldl, List.nil_append]
    simp only [List.mem_filter, decide_eq_true_eq]
    rintro ⟨⟨_, hin⟩, ⟨_, hout⟩⟩
    exact hout hin
  · intro t ht
    unfold tokenize at ht
    rw [mem_toTokenSet] at ht
    simp only [List.mem_map, List.mem_filter] at ht
    obtain ⟨l, ⟨_, hl⟩, rfl⟩ := ht
    simp only [Bool.and_eq_true, decide_eq_true_eq, Bool.not_eq_true'] at hl
    obtain ⟨hlen, hnum⟩ := hl
    constructor
    · exact hlen
    · intro ⟨hne, hdig⟩
      have hne' : l.isEmpty = false := by
        cases l with
        | nil => exact absurd rfl hne
        | cons a as => rfl
      rw [hne', hdig] at hnum
      simp at hnum

/-! ## C10: merging never touches `otherSections` -/

/-- **C10.** For every parsed resume and overlay, the merged resume's
`otherSections` is exactly the original's: `mergeOptimizedIntoResume`
neither modifies, replaces, nor drops the unrecognized-section mapping. -/
theorem mergeOptimized_otherSections_frame (parsed : ParsedResume)
    (optimized : OptimizedSections) :
    (mergeOptimizedIntoResume parsed optimized).otherSections = parsed.otherSections := rfl

/-- **C2 counterexample.** A parsed resume with `M = 2` experience entries
merged with an overlay of `N = 1` entries (`1 ≤ N ≤ M`) yields a merged
resume with only `1` experience entry: the original count `M` is not
preserved, contradicting the claim. -/
theorem mergeOptimized_count_counterexample :
    c2Parsed.experience.length = 2
    ∧ (c2Overlay.experience.map List.length) = some 1
    ∧ (mergeOptimizedIntoResume c2Parsed c2Overlay).experience.length = 1 := by
  refine ⟨rfl, rfl, rfl⟩

/-- **C2 amended.** For a non-empty overlay experience list `l` of `N`
entries, `mergeOptimizedIntoResume` produces exactly `N` merged entries in
overlay order (the original count `M` is preserved only when `N = M`).
Merged entry `i` takes `company`, `role` and `bullets` from overlay entry
`i` (with no fallback to the original for `company`/`role`), always takes
`location` and `dates` from original entry `i` (absent when `i` is beyond
the original list), and takes `subheader` from overlay entry `i` with
fallback to original entry `i`. -/
theorem mergeOptimized_experience_overlay (parsed : ParsedResume)
    (optimized : OptimizedSections)
    (l : List OptExperienceEntry) (hl : optimized.experience = some l) (hne : l ≠ []) :
    (mergeOptimizedIntoResume parsed optimized).experience.length = l.length
    ∧ ∀ i, (hi : i < l.length) →
        (mergeOptimizedIntoResume parsed optimized).experience[i]? = some
          { company := l[i].company
            role := l[i].role
            location := (parsed.experience[i]?).bind (·.location)
            dates := (parsed.experience[i]?).bind (·.dates)
            subheader := l[i].subheader <|> (parsed.experience[i]?).bind (·.subheader)
            bullets := l[i].bullets } := by
  have hemp : l.isEmpty = false := by
    cases l with
    | nil => exact absurd rfl hne
    | cons a as => rfl
  have hexp : (mergeOptimizedIntoResume parsed optimized).experience
      = l.enum.map (fun ie =>
          let orig := parsed.experience[ie.1]?
          { company := ie.2.company
            role := ie.2.role
            location := orig.bind (·.location)
            dates := orig.bind (·.dates)
            subheader := ie.2.subheader <|> orig.bind (·.subheader)
            bullets := ie.2.bullets }) := by
    unfold mergeOptimizedIntoResume
    rw [hl]
    simp [hemp]
  constructor
  · rw [hexp]
    simp
  · intro i hi
    rw [hexp]
    rw [List.getElem?_map, List.getElem?_enum]
    rw [List.getElem?_eq_getElem hi]
    rfl

/-- **C2 amended, witness.** -/
theorem mergeOptimized_experience_overlay_witness :
    (mergeOptimizedIntoResume c2Parsed c2Overlay).experience.length = 1
    ∧ (mergeOptimizedIntoResume c2Parsed c2Overlay).experience[0]? = some
        { company := some "Acme", role := some "Dev",
          location := some "Seattle, WA", dates := some "Jan 2020 - Present",
          subheader := none, bullets := ["did a better"] } := by
  have h := mergeOptimized_experience_overlay c2Parsed c2Overlay
    [{ company := some "Acme", role := some "Dev", bullets := ["did a better"] }]
    rfl (by simp)
  refine ⟨h.1, ?_⟩
  have h0 := h.2 0 (by simp)
  simpa using h0

/-- **C4 counterexample.** An overlay whose `contact` is present but empty
(all fields absent) *does* replace the original contact in
`mergeOptimizedIntoResume`: the merged contact is the empty contact, not the
original one, contradicting the claim for the contact section. -/
theorem mergeOptimized_emptyContact_counterexample :
    c4Overlay.contact = some {}
    ∧ (mergeOptimizedIntoResume c4Parsed c4Overlay).contact ≠ c4Parsed.contact
    ∧ (mergeOptimizedIntoResume c4Parsed c4Overlay).contact = ({} : Contact) := by
  refine ⟨rfl, ?_, rfl⟩
  intro h
  have := congrArg Contact.name h
  simp [mergeOptimizedIntoResume, c4Parsed, c4Overlay] at this

/-- **C4 amended.** In `mergeOptimizedIntoResume`, a present-but-empty
overlay `education`/`experience`/`projects`/`skills` list does not replace
the original section (the merged section equals the original); a present
overlay `contact`, however, replaces the original contact wholesale even
when it is empty. -/
theorem mergeOptimized_empty_sections (parsed : ParsedResume)
    (optimized : OptimizedSections)
    (he : optimized.education = some []) (hx : optimized.experience = some [])
    (hp : optimized.projects = some []) (hs : optimized.skills = some [])
    (c : Contact) (hc : optimized.contact = some c) :
    (mergeOptimizedIntoResume parsed optimized).education = parsed.education
    ∧ (mergeOptimizedIntoResume parsed optimized).experience = parsed.experience
    ∧ (mergeOptimizedIntoResume parsed optimized).projects = parsed.projects
    ∧ (mergeOptimizedIntoResume parsed optimized).skills = parsed.skills
    ∧ (mergeOptimizedIntoResume parsed optimized).contact = c := by
  unfold mergeOptimizedIntoResume
  rw [he, hx, hp, hs, hc]
  simp

/-- **C4 amended, witness.** -/
theorem mergeOptimized_empty_sections_witness :
    (mergeOptimizedIntoResume c4Parsed
        { education := some [], experience := some [], projects := some [],
          skills := some [], contact := some {} }).education = c4Parsed.education
    ∧ (mergeOptimizedIntoResume c4Parsed
        { education := some [], experience := some [], projects := some [],
          skills := some [], contact := some {} }).skills = c4Parsed.skills
    ∧ (mergeOptimizedIntoResume c4Parsed
        { education := some [], experience := some [], projects := some [],
          skills := some [], contact := some {} }).contact = ({} : Contact) := by
  have h := mergeOptimized_empty_sections c4Parsed
    { education := some [], experience := some [], projects := some [],
      skills := some [], contact := some {} }
    rfl rfl rfl rfl {} rfl
  exact ⟨h.1, h.2.2.2.1, h.2.2.2.2⟩

theorem buildTemplatePayload_eq (parsed : ParsedResume)
    (optimized : Option OptimizedSections) :
    buildTemplatePayload parsed optimized = buildTemplatePayloadE parsed optimized := rfl

/-- **C5.** `buildTemplatePayload` always produces exactly the 47 capped
placeholder keys, in insertion order (so no key is ever omitted and there
are no keys beyond the caps), and every slot beyond the actual data maps to
the empty string: an education slot with no data in overlay or original, an
experience slot with no data in overlay or original (including each of its
four bullet slots), and a project slot beyond the parsed projects
(including each of its two bullet slots) all resolve to `""`. -/
theorem buildTemplatePayload_total (parsed : ParsedResume)
    (optimized : Option OptimizedSections) :
    ((buildTemplatePayload parsed optimized).map Prod.fst = payloadKeys)
    ∧ (∀ i : Nat, i < MAX_EDUCATION →
        eduAt parsed optimized i = none →
        ∀ f ∈ ["school", "degree", "dates", "gpa"],
          (buildTemplatePayload parsed optimized).lookup
            ("education." ++ toString i ++ "." ++ f) = some "")
    ∧ (∀ i : Nat, i < MAX_EXPERIENCE →
        (payloadExperience parsed optimized)[i]? = none →
        parsed.experience[i]? = none →
        (∀ f ∈ ["company", "role", "location", "dates", "subheader"],
          (buildTemplatePayload parsed optimized).lookup
            ("experience." ++ toString i ++ "." ++ f) = some "")
        ∧ ∀ j : Nat, j < MAX_EXPERIENCE_BULLETS →
          (buildTemplatePayload parsed optimized).lookup
            ("experience." ++ toString i ++ ".bullet." ++ toString j) = some "")
    ∧ (∀ i : Nat, i < MAX_PROJECTS → parsed.projects[i]? = none →
        ((buildTemplatePayload parsed optimized).lookup
            ("projects." ++ toString i ++ ".title") = some "")
        ∧ ∀ j : Nat, j < MAX_PROJECT_BULLETS →
          (buildTemplatePayload parsed optimized).lookup
            ("projects." ++ toString i ++ ".bullet." ++ toString j) = some "") := by
  rw [buildTemplatePayload_eq]
  have t0 : toString (0 : Nat) = "0" := rfl
  have t1 : toString (1 : Nat) = "1" := rfl
  have t2 : toString (2 : Nat) = "2" := rfl
  have t3 : toString (3 : Nat) = "3" := rfl
  refine ⟨rfl, ?_, ?_, ?_⟩
  · intro i hi h1 f hf
    simp only [MAX_EDUCATION] at hi
    interval_cases i <;> fin_cases hf <;>
      simp [buildTemplatePayloadE, List.lookup, h1, t0, t1]
  · intro i hi h1 h2
    simp only [MAX_EXPERIENCE] at hi
    have hb : expBulletsAt parsed optimized i = [] := by
      simp [expBulletsAt, h1, h2]
    constructor
    · intro f hf
      interval_cases i <;> fin_cases hf <;>
        simp [buildTemplatePayloadE, List.lookup, h1, h2, t0, t1, t2]
    · intro j hj
      simp only [MAX_EXPERIENCE_BULLETS] at hj
      interval_cases i <;> interval_cases j <;>
        simp [buildTemplatePayloadE, List.lookup, hb, t0, t1, t2, t3]
  · intro i hi h1
    simp only [MAX_PROJECTS] at hi
    have hb : projBulletsAt parsed i = [] := by
      simp [projBulletsAt, h1]
    constructor
    · interval_cases i <;>
        simp [buildTemplatePayloadE, List.lookup, h1, t0, t1]
    · intro j hj
      simp only [MAX_PROJECT_BULLETS] at hj
      interval_cases i <;> interval_cases j <;>
        simp [buildTemplatePayloadE, List.lookup, hb, t0, t1]

/-- **C5 witness.** -/
theorem buildTemplatePayload_total_witness :
    ((buildTemplatePayload {} none).map Prod.fst = payloadKeys)
    ∧ (buildTemplatePayload {} none).lookup "education.1.school" = some ""
    ∧ (buildTemplatePayload {} none).lookup "experience.2.bullet.3" = some ""
    ∧ (buildTemplatePayload {} none).lookup "projects.1.bullet.1" = some "" := by
  obtain ⟨h1, h2, h3, h4⟩ := buildTemplatePayload_total {} none
  refine ⟨h1, ?_, ?_, ?_⟩
  · exact h2 1 (by decide) rfl "school" (by simp)
  · exact (h3 2 (by decide) rfl rfl).2 3 (by decide)
  · exact (h4 1 (by decide) rfl).2 1 (by decide)

/-! ## String-scanning lemma kit -/

theorem startsWith_refl (s : Chars) : startsWith s s = true := by
  induction s with
  | nil => rfl
  | cons c t ih => simp [startsWith, ih]

theorem startsWith_append_extend (p x z : Chars) (h : startsWith p x = true) :
    startsWith p (x ++ z) = true := by
  induction p generalizing x with
  | nil => rfl
  | cons a p' ih =>
    cases x with
    | nil => simp [startsWith] at h
    | cons c t =>
      simp only [startsWith, Bool.and_eq_true, decide_eq_true_eq] at h
      simp only [List.cons_append, startsWith, Bool.and_eq_true, decide_eq_true_eq]
      exact ⟨h.1, ih t h.2⟩

theorem startsWith_self_append (p z : Chars) : startsWith p (p ++ z) = true :=
  startsWith_append_extend p p z (startsWith_refl p)

theorem startsWith_eq_append (p s : Chars) (h : startsWith p s = true) :
    s = p ++ s.drop p.length := by
  induction p generalizing s with
  | nil => simp
  | cons a p' ih =>
    cases s with
    | nil => simp [startsWith] at h
    | cons c t =>
      simp only [startsWith, Bool.and_eq_true, decide_eq_true_eq] at h
      obtain ⟨rfl, h2⟩ := h
      simpa using ih t h2

/-- Prefix decomposition over an append: a prefix of `x ++ y` is a prefix of
`x` or extends `x` by a prefix of `y`. -/
theorem startsWith_append_cases (p x y : Chars) (h : startsWith p (x ++ y) = true) :
    startsWith p x = true ∨ ∃ p2, p = x ++ p2 ∧ startsWith p2 y = true := by
  induction x generalizing p with
  | nil => exact Or.inr ⟨p, rfl, h⟩
  | cons c x' ih =>
    cases p with
    | nil => exact Or.inl rfl
    | cons a p' =>
      simp only [List.cons_append, startsWith, Bool.and_eq_true, decide_eq_true_eq] at h
      obtain ⟨rfl, h2⟩ := h
      rcases ih p' h2 with h3 | ⟨p2, rfl, h4⟩
      · exact Or.inl (by simp [startsWith, h3])
      · exact Or.inr ⟨p2, by simp, h4⟩

theorem occursIn_iff (p s : Chars) :
    occursIn p s = true ↔ ∃ a b, s = a ++ p ++ b := by
  induction s with
  | nil =>
    simp only [occursIn]
    constructor
    · intro h
      cases p with
      | nil => exact ⟨[], [], rfl⟩
      | cons a p' => simp [startsWith] at h
    · rintro ⟨a, b, hab⟩
      have ha : a = [] := by
        cases a with
        | nil => rfl
        | cons x xs => simp at hab
      subst ha
      have hb : p ++ b = [] := hab.symm
      have hp : p = [] := by
        cases p with
        | nil => rfl
        | cons x xs => simp at hb
      subst hp
      rfl
  | cons c t ih =>
    simp only [occursIn, Bool.or_eq_true]
    constructor
    · rintro (h | h)
      · exact ⟨[], (c :: t).drop p.length, by simpa using startsWith_eq_append p (c :: t) h⟩
      · obtain ⟨a, b, rfl⟩ := ih.1 h
        exact ⟨c :: a, b, by simp⟩
    · rintro ⟨a, b, hab⟩
      cases a with
      | nil =>
        left
        simp only [List.nil_append] at hab
        rw [hab]
        exact startsWith_self_append p b
      | cons x a' =>
        right
        simp only [List.cons_append, List.cons.injEq] at hab
        exact ih.2 ⟨a', b, hab.2⟩

theorem occursIn_append_left (p a b : Chars) (h : occursIn p a = true) :
    occursIn p (a ++ b) = true := by
  rw [occursIn_iff] at h ⊢
  obtain ⟨x, y, rfl⟩ := h
  exact ⟨x, y ++ b, by simp⟩

theorem occursIn_append_right (p a b : Chars) (h : occursIn p b = true) :
    occursIn p (a ++ b) = true := by
  rw [occursIn_iff] at h ⊢
  obtain ⟨x, y, rfl⟩ := h
  exact ⟨a ++ x, y, by simp⟩

/-- Occurrence decomposition over an append: an occurrence lies in the left
part, in the right part, or spans the junction. -/
theorem occursIn_append_cases (p x y : Chars) (h : occursIn p (x ++ y) = true) :
    occursIn p x = true ∨ occursIn p y = true
    ∨ ∃ p1 p2 a b, p = p1 ++ p2 ∧ p1 ≠ [] ∧ p2 ≠ [] ∧ x = a ++ p1 ∧ y = p2 ++ b := by
  rw [occursIn_iff] at h
  obtain ⟨a, b, hab⟩ := h
  rw [List.append_assoc] at hab
  rcases List.append_eq_append_iff.mp hab with ⟨k, hx, hy⟩ | ⟨k, hx, hy⟩
  · -- a = x ++ k and y = k ++ (p ++ b): occurrence inside y
    right; left
    rw [occursIn_iff]
    exact ⟨k, b, by rw [hy, List.append_assoc]⟩
  · -- x = a ++ k and p ++ b = k ++ y
    rcases List.append_eq_append_iff.mp hy.symm with ⟨m, hpk, hyb⟩ | ⟨m, hkp, hbm⟩
    · -- p = k ++ m and y = m ++ b
      cases k with
      | nil =>
        right; left
        rw [occursIn_iff]
        simp only [List.nil_append] at hpk
        exact ⟨[], b, by rw [hyb, hpk]; simp⟩
      | cons kc kt =>
        cases m with
        | nil =>
          left
          rw [occursIn_iff]
          simp only [List.append_nil] at hpk
          exact ⟨a, [], by rw [hx, hpk]; simp⟩
        | cons mc mt =>
          right; right
          exact ⟨kc :: kt, mc :: mt, a, b, hpk, by simp, by simp, hx, hyb⟩
    · -- k = p ++ m and b = m ++ y: occurrence inside x
      left
      rw [occursIn_iff]
      refine ⟨a, m, ?_⟩
      rw [hx, hkp]
      simp

theorem occursIn_of_startsWith (p s : Chars) (h : startsWith p s = true) :
    occursIn p s = true := by
  cases s with
  | nil => simpa [occursIn] using h
  | cons c t => simp [occursIn, h]

theorem braceFree_append (a b : Chars) :
    braceFree (a ++ b) = (braceFree a && braceFree b) := by
  simp [braceFree, List.all_append]

theorem braceFree_mem (s : Chars) (h : braceFree s = true) (c : Char) (hc : c ∈ s) :
    c ≠ lbrace ∧ c ≠ rbrace := by
  simp only [braceFree, List.all_eq_true, Bool.and_eq_true, decide_eq_true_eq] at h
  exact h c hc

/-- If the pattern cannot start at any position inside region `R` (given the
continuation `y`), `replaceAllL` copies `R` verbatim. -/
theorem replaceAllL_pass (pat v R y : Chars)
    (h : ∀ R1 R2, R = R1 ++ R2 → R2 ≠ [] → startsWith pat (R2 ++ y) = false) :
    replaceAllL pat v (R ++ y) = R ++ replaceAllL pat v y := by
  induction R with
  | nil => simp
  | cons c R' ih =>
    have h0 : startsWith pat ((c :: R') ++ y) = false := h [] (c :: R') rfl (by simp)
    rw [List.cons_append] at h0
    rw [List.cons_append, replaceAllL_cons, h0]
    simp only [Bool.false_eq_true, if_false, List.cons_append, List.cons.injEq, true_and]
    exact ih (fun R1 R2 hR hne => h (c :: R1) R2 (by rw [hR]; simp) hne)

theorem occursIn_pass (pat R y : Chars)
    (h : ∀ R1 R2, R = R1 ++ R2 → R2 ≠ [] → startsWith pat (R2 ++ y) = false) :
    occursIn pat (R ++ y) = occursIn pat y := by
  induction R with
  | nil => simp
  | cons c R' ih =>
    have h0 : startsWith pat ((c :: R') ++ y) = false := h [] (c :: R') rfl (by simp)
    rw [List.cons_append] at h0
    rw [List.cons_append, occursIn, h0]
    simp only [Bool.false_or]
    exact ih (fun R1 R2 hR hne => h (c :: R1) R2 (by rw [hR]; simp) hne)

theorem occCount_pass (pat R y : Chars)
    (h : ∀ R1 R2, R = R1 ++ R2 → R2 ≠ [] → startsWith pat (R2 ++ y) = false) :
    occCount pat (R ++ y) = occCount pat y := by
  induction R with
  | nil => simp
  | cons c R' ih =>
    have h0 : startsWith pat ((c :: R') ++ y) = false := h [] (c :: R') rfl (by simp)
    rw [List.cons_append] at h0
    rw [List.cons_append, occCount, h0]
    simp only [Bool.false_eq_true, if_false, Nat.zero_add]
    exact ih (fun R1 R2 hR hne => h (c :: R1) R2 (by rw [hR]; simp) hne)

theorem occCount_append_le (p x y : Chars) : occCount p y ≤ occCount p (x ++ y) := by
  induction x with
  | nil => simp
  | cons c x' ih =>
    rw [List.cons_append, occCount]
    omega

theorem occCount_self_append_ge (p rest : Chars) (hp : p ≠ []) :
    1 + occCount p rest ≤ occCount p (p ++ rest) := by
  cases p with
  | nil => exact absurd rfl hp
  | cons c pt =>
    rw [List.cons_append, occCount]
    have h1 : startsWith (c :: pt) (c :: pt ++ rest) = true := by
      simpa using startsWith_self_append (c :: pt) rest
    rw [List.cons_append] at h1
    rw [h1]
    simp only [if_true]
    have := occCount_append_le (c :: pt) pt rest
    omega

theorem one_le_occCount_of_occursIn (p s : Chars) (h : occursIn p s = true) :
    1 ≤ occCount p s := by
  induction s with
  | nil =>
    simp only [occursIn] at h
    simp [occCount, h]
  | cons c t ih =>
    simp only [occursIn, Bool.or_eq_true] at h
    rw [occCount]
    rcases h with h | h
    · rw [h]
      simp only [if_true]
      omega
    · have := ih h
      omega

theorem startsWith_head_ne (p' : Chars) (c : Char) (s : Chars) (h : c ≠ lbrace) :
    startsWith (lbrace :: p') (c :: s) = false := by
  unfold startsWith
  rw [decide_eq_false (fun hc => h hc.symm)]
  rw [Bool.false_and]

/-- A brace-free region cannot host the start of a pattern that begins with
`{`. -/
theorem chunkRegion (pat' R y : Chars) (hbf : braceFree R = true) :
    ∀ R1 R2, R = R1 ++ R2 → R2 ≠ [] → startsWith (lbrace :: pat') (R2 ++ y) = false := by
  intro R1 R2 hR hne
  cases R2 with
  | nil => exact absurd rfl hne
  | cons c R2' =>
    have hc : c ∈ R := by rw [hR]; simp
    have := braceFree_mem R hbf c hc
    rw [List.cons_append]
    exact startsWith_head_ne _ c _ this.1

theorem lbrace_ne_rbrace : lbrace ≠ rbrace := by decide

theorem tailCompare (a b y : Chars) (ha : braceFree a = true) (hb : braceFree b = true)
    (h : startsWith (a ++ [rbrace, rbrace]) (b ++ rbrace :: rbrace :: y) = true) :
    a = b := by
  induction a generalizing b with
  | nil =>
    cases b with
    | nil => rfl
    | cons d b' =>
      exfalso
      simp only [List.nil_append, List.cons_append, startsWith, Bool.and_eq_true,
        decide_eq_true_eq] at h
      have := braceFree_mem (d :: b') hb d (by simp)
      exact this.2 h.1.symm
  | cons c a' ih =>
    cases b with
    | nil =>
      exfalso
      simp only [List.cons_append, List.nil_append, startsWith, Bool.and_eq_true,
        decide_eq_true_eq] at h
      have := braceFree_mem (c :: a') ha c (by simp)
      exact this.2 h.1
    | cons d b' =>
      simp only [List.cons_append, startsWith, Bool.and_eq_true, decide_eq_true_eq] at h
      have hbf1 : braceFree a' = true := by
        simp only [braceFree, List.all_cons, Bool.and_eq_true] at ha
        exact ha.2
      have hbf2 : braceFree b' = true := by
        simp only [braceFree, List.all_cons, Bool.and_eq_true] at hb
        exact hb.2
      have heq := ih b' hbf1 hbf2 h.2
      rw [h.1, heq]

theorem phNotStarts (a b y : Chars) (ha : braceFree a = true) (hb : braceFree b = true)
    (hne : a ≠ b) : startsWith (phL a) (phL b ++ y) = false := by
  by_contra hcontra
  rw [Bool.not_eq_false] at hcontra
  simp only [phL, List.cons_append, startsWith, Bool.and_eq_true, decide_eq_true_eq] at hcontra
  obtain ⟨-, -, h⟩ := hcontra
  refine hne (tailCompare a b y ha hb ?_)
  have hshape : (b ++ [rbrace, rbrace]) ++ y = b ++ rbrace :: rbrace :: y := by simp
  rw [← hshape]
  exact h

/-- The pattern `{{k}}` cannot start at any position strictly inside (or at
the head of) the region `{{k'}}` when `k ≠ k'`. -/
theorem phRegionCond (kd k'd y : Chars) (hk : braceFree kd = true)
    (hk' : braceFree k'd = true) (hne : kd ≠ k'd) :
    ∀ R1 R2, phL k'd = R1 ++ R2 → R2 ≠ [] → startsWith (phL kd) (R2 ++ y) = false := by
  intro R1 R2 hsplit hne2
  have hchars : ∀ c ∈ k'd ++ [rbrace, rbrace], c ≠ lbrace := by
    intro c hc
    rcases List.mem_append.mp hc with hc | hc
    · exact (braceFree_mem k'd hk' c hc).1
    · simp only [List.mem_cons, List.not_mem_nil, or_false] at hc
      rcases hc with rfl | rfl
      · exact (Ne.symm lbrace_ne_rbrace)
      · exact (Ne.symm lbrace_ne_rbrace)
  cases R1 with
  | nil =>
    simp only [List.nil_append] at hsplit
    rw [← hsplit]
    exact phNotStarts kd k'd y hk hk' hne
  | cons x R1' =>
    simp only [phL, List.cons_append, List.cons.injEq] at hsplit
    obtain ⟨rfl, hsplit⟩ := hsplit
    cases R1' with
    | nil =>
      simp only [List.nil_append] at hsplit
      rw [← hsplit]
      have hinner : startsWith (lbrace :: (kd ++ [rbrace, rbrace]))
          ((k'd ++ [rbrace, rbrace]) ++ y) = false := by
        cases hq : k'd ++ [rbrace, rbrace] with
        | nil => simp at hq
        | cons q qt =>
          rw [List.cons_append]
          exact startsWith_head_ne _ q _ (hchars q (by rw [hq]; simp))
      show startsWith (phL kd) ((lbrace :: (k'd ++ [rbrace, rbrace])) ++ y) = false
      rw [List.cons_append]
      unfold phL
      unfold startsWith
      rw [hinner]
      simp
    | cons x' R1'' =>
      simp only [List.cons_append, List.cons.injEq] at hsplit
      obtain ⟨rfl, hsplit⟩ := hsplit
      cases R2 with
      | nil => exact absurd rfl hne2
      | cons c R2' =>
        have hc : c ∈ k'd ++ [rbrace, rbrace] := by rw [hsplit]; simp
        rw [List.cons_append]
        exact startsWith_head_ne _ c _ (hchars c hc)

theorem replaceAllL_self (pat v y : Chars) (hp : pat ≠ []) :
    replaceAllL pat v (pat ++ y) = v ++ replaceAllL pat v y := by
  cases pat with
  | nil => exact absurd rfl hp
  | cons c pt =>
    have h1 : startsWith (c :: pt) (c :: pt ++ y) = true := by
      simpa using startsWith_self_append (c :: pt) y
    rw [List.cons_append, replaceAllL_cons]
    rw [List.cons_append] at h1
    rw [h1]
    simp only [if_true, List.length_cons, Nat.add_sub_cancel, List.append_cancel_left_eq]
    rw [List.drop_left]

theorem replaceFirstL_not_found (pat rep s : Chars) (h : occursIn pat s = false) :
    replaceFirstL pat rep s = s := by
  induction s with
  | nil =>
    simp only [occursIn] at h
    simp [replaceFirstL, h]
  | cons c t ih =>
    rw [occursIn] at h
    rw [Bool.or_eq_false_iff] at h
    rw [replaceFirstL, h.1]
    simp only [Bool.false_eq_true, if_false, List.cons.injEq, true_and]
    exact ih h.2

theorem replaceFirstL_found (pat rep s : Chars) (h : occursIn pat s = true) :
    ∃ A B, s = A ++ pat ++ B ∧ replaceFirstL pat rep s = A ++ rep ++ B := by
  induction s with
  | nil =>
    simp only [occursIn] at h
    have hp : pat = [] := by
      cases pat with
      | nil => rfl
      | cons a p' => simp [startsWith] at h
    subst hp
    exact ⟨[], [], rfl, by simp [replaceFirstL, startsWith]⟩
  | cons c t ih =>
    by_cases hsw : startsWith pat (c :: t) = true
    · refine ⟨[], (c :: t).drop pat.length, ?_, ?_⟩
      · simpa using startsWith_eq_append pat (c :: t) hsw
      · simp [replaceFirstL, hsw]
    · rw [occursIn] at h
      rw [Bool.or_eq_true] at h
      rcases h with h | h
      · exact absurd h hsw
      · obtain ⟨A, B, hAB, hrep⟩ := ih h
        refine ⟨c :: A, B, by rw [hAB]; simp, ?_⟩
        rw [replaceFirstL, if_neg hsw, hrep]
        simp

theorem mem_of_append_singleton (w : Chars) (x : Char) (a b : Chars)
    (h : w ++ [x] = a ++ b) (hb : b ≠ []) : x ∈ b := by
  induction a generalizing w with
  | nil =>
    simp only [List.nil_append] at h
    rw [← h]
    simp
  | cons c a' ih =>
    cases w with
    | nil =>
      simp only [List.nil_append, List.cons_append] at h
      have h2 : a' ++ b = [] := by
        have h3 := h.symm
        simp only [List.cons.injEq] at h3
        exact h3.2
      have hbnil : b = [] := (List.append_eq_nil.mp h2).2
      exact absurd hbnil hb
    | cons d w' =>
      simp only [List.cons_append, List.cons.injEq] at h
      exact ih w' h.2

/-- Occurrences of a brace-free pattern in `A ++ T ++ B`, where `T` is a
brace-delimited token not containing the pattern, lie entirely within `A`
or within `B`. -/
theorem occursIn_sandwich (Y A T B : Chars) (hbf : braceFree Y = true)
    (hT : ∃ T2, T = lbrace :: T2 ++ [rbrace]) (hYT : occursIn Y T = false)
    (h : occursIn Y (A ++ T ++ B) = true) :
    occursIn Y A = true ∨ occursIn Y B = true := by
  obtain ⟨T2, hTeq⟩ := hT
  rw [List.append_assoc] at h
  rcases occursIn_append_cases Y A (T ++ B) h with h1 | h1 | ⟨p1, p2, a, b, hY, hp1, hp2, hA, hTB⟩
  · exact Or.inl h1
  · rcases occursIn_append_cases Y T B h1 with h2 | h2 | ⟨q1, q2, a, b, hY, hq1, hq2, hTq, hB⟩
    · rw [h2] at hYT
      exact absurd hYT (by simp)
    · exact Or.inr h2
    · exfalso
      have hrb : rbrace ∈ q1 := by
        refine mem_of_append_singleton (lbrace :: T2) rbrace a q1 ?_ hq1
        rw [← hTq, hTeq]
      have hrbY : rbrace ∈ Y := by
        rw [hY]
        exact List.mem_append_left q2 hrb
      exact (braceFree_mem Y hbf rbrace hrbY).2 rfl
  · exfalso
    cases p2 with
    | nil => exact absurd rfl hp2
    | cons p2c p2t =>
      have hhead : p2c = lbrace := by
        rw [hTeq] at hTB
        simp only [List.cons_append, List.cons.injEq] at hTB
        exact hTB.1.symm
      have hlbY : lbrace ∈ Y := by
        rw [hY, hhead]
        exact List.mem_append_right p1 (by simp)
      exact (braceFree_mem Y hbf lbrace hlbY).1 rfl

/-- The region condition for a brace-delimited token `T` not containing the
brace-free pattern `Y`: no start of `Y` inside `T`. -/
theorem tokenRegionCond (Y T2 B : Chars) (hbf : braceFree Y = true)
    (hYT : occursIn Y (lbrace :: T2 ++ [rbrace]) = false) :
    ∀ R1 R2, lbrace :: T2 ++ [rbrace] = R1 ++ R2 → R2 ≠ [] →
      startsWith Y (R2 ++ B) = false := by
  intro R1 R2 hsplit hne
  by_contra hc
  rw [Bool.not_eq_false] at hc
  rcases startsWith_append_cases Y R2 B hc with h1 | ⟨p2, rfl, h2⟩
  · have : occursIn Y (lbrace :: T2 ++ [rbrace]) = true := by
      rw [hsplit]
      exact occursIn_append_right Y R1 R2 (occursIn_of_startsWith Y R2 h1)
    rw [this] at hYT
    exact absurd hYT (by simp)
  · have hrb : rbrace ∈ R2 := by
      refine mem_of_append_singleton (lbrace :: T2) rbrace R1 R2 ?_ hne
      simpa using hsplit
    have : rbrace ∈ R2 ++ p2 := List.mem_append_left p2 hrb
    exact (braceFree_mem (R2 ++ p2) hbf rbrace this).2 rfl

/-- Replacing an occurrence of `X` by the token `T` does not increase the
number of occurrences of a brace-free `Y` that does not occur in `T`. -/
theorem occCount_sandwich (Y A T X B : Chars) (hbf : braceFree Y = true)
    (hT : ∃ T2, T = lbrace :: T2 ++ [rbrace]) (hYT : occursIn Y T = false) :
    occCount Y (A ++ T ++ B) ≤ occCount Y (A ++ X ++ B) := by
  obtain ⟨T2, hTeq⟩ := hT
  induction A with
  | nil =>
    simp only [List.nil_append]
    have hpass : occCount Y (T ++ B) = occCount Y B := by
      rw [hTeq]
      exact occCount_pass Y _ B (tokenRegionCond Y T2 B hbf (hTeq ▸ hYT))
    rw [hpass]
    exact occCount_append_le Y X B
  | cons c A' ih =>
    rw [List.append_assoc, List.append_assoc, List.cons_append, List.cons_append,
      occCount, occCount]
    rw [← List.append_assoc, ← List.append_assoc] at *
    have hif : startsWith Y (c :: (A' ++ T ++ B)) = true →
        startsWith Y (c :: (A' ++ X ++ B)) = true := by
      intro hsw
      have hshape : c :: (A' ++ T ++ B) = (c :: A') ++ (T ++ B) := by simp
      rw [hshape] at hsw
      rcases startsWith_append_cases Y (c :: A') (T ++ B) hsw with h1 | ⟨p2, rfl, h2⟩
      · have := startsWith_append_extend Y (c :: A') (X ++ B) h1
        simpa using this
      · cases p2 with
        | nil =>
          have h3 : startsWith ((c :: A') ++ []) ((c :: A') ++ (X ++ B)) = true := by
            rw [List.append_nil]
            exact startsWith_self_append (c :: A') (X ++ B)
          simpa using h3
        | cons p2c p2t =>
          exfalso
          have hhead : p2c = lbrace := by
            rw [hTeq] at h2
            simp only [List.cons_append, startsWith, Bool.and_eq_true,
              decide_eq_true_eq] at h2
            exact h2.1
          have hlbY : lbrace ∈ (c :: A') ++ p2c :: p2t := by
            rw [hhead]
            exact List.mem_append_right _ (by simp)
          exact (braceFree_mem _ hbf lbrace hlbY).1 rfl
    by_cases hsw : startsWith Y (c :: (A' ++ T ++ B)) = true
    · rw [hsw, hif hsw]
      simp only [if_true]
      omega
    · rw [Bool.not_eq_true] at hsw
      rw [hsw]
      by_cases hsw2 : startsWith Y (c :: (A' ++ X ++ B)) = true
      · rw [hsw2]
        simp only [if_true, Bool.false_eq_true, if_false]
        omega
      · rw [Bool.not_eq_true] at hsw2
        rw [hsw2]
        simp only [Bool.false_eq_true, if_false]
        omega

theorem two_le_occCount (Y u v w : Chars) (hY : Y ≠ []) :
    2 ≤ occCount Y (u ++ (Y ++ (v ++ (Y ++ w)))) := by
  have h1 : occCount Y (Y ++ (v ++ (Y ++ w))) ≤ occCount Y (u ++ (Y ++ (v ++ (Y ++ w)))) :=
    occCount_append_le Y u _
  have h2 : 1 + occCount Y (v ++ (Y ++ w)) ≤ occCount Y (Y ++ (v ++ (Y ++ w))) :=
    occCount_self_append_ge Y _ hY
  have h3 : occCount Y (Y ++ w) ≤ occCount Y (v ++ (Y ++ w)) :=
    occCount_append_le Y v _
  have h4 : 1 + occCount Y w ≤ occCount Y (Y ++ w) :=
    occCount_self_append_ge Y _ hY
  omega

/-- Replacing an occurrence of `X` by a brace-delimited token `T` cannot
create a new occurrence of a brace-free pattern `Y` that is absent from `T`. -/
theorem occursIn_replaceFirst_preserve (Y X T d : Chars) (hbf : braceFree Y = true)
    (hT : ∃ T2, T = lbrace :: T2 ++ [rbrace]) (hYT : occursIn Y T = false)
    (h : occursIn Y d = false) : occursIn Y (replaceFirstL X T d) = false := by
  by_cases hx : occursIn X d = true
  · obtain ⟨A, B, hd, hrep⟩ := replaceFirstL_found X T d hx
    rw [hrep]
    by_contra hc
    rw [Bool.not_eq_false] at hc
    rcases occursIn_sandwich Y A T B hbf hT hYT hc with h1 | h1
    · have : occursIn Y d = true := by
        rw [hd, List.append_assoc]
        exact occursIn_append_left Y A _ h1
      rw [this] at h
      exact absurd h (by simp)
    · have : occursIn Y d = true := by
        rw [hd]
        exact occursIn_append_right Y _ B h1
      rw [this] at h
      exact absurd h (by simp)
  · rw [Bool.not_eq_true] at hx
    rw [replaceFirstL_not_found X T d hx]
    exact h

/-- Replacing an occurrence of `X` by a brace-delimited token `T` does not
increase the occurrence count of such a pattern `Y`. -/
theorem occCount_replaceFirst_le (Y X T d : Chars) (hbf : braceFree Y = true)
    (hT : ∃ T2, T = lbrace :: T2 ++ [rbrace]) (hYT : occursIn Y T = false) :
    occCount Y (replaceFirstL X T d) ≤ occCount Y d := by
  by_cases hx : occursIn X d = true
  · obtain ⟨A, B, hd, hrep⟩ := replaceFirstL_found X T d hx
    rw [hrep, hd]
    exact occCount_sandwich Y A T X B hbf hT hYT
  · rw [Bool.not_eq_true] at hx
    rw [replaceFirstL_not_found X T d hx]

/-- After replacing the unique occurrence of `Y` by the token `T`, the
literal `Y` is gone. -/
theorem occursIn_replaceFirst_self (Y T d : Chars) (hY : Y ≠ [])
    (hbf : braceFree Y = true) (hT : ∃ T2, T = lbrace :: T2 ++ [rbrace])
    (hYT : occursIn Y T = false) (hocc : occCount Y d ≤ 1) :
    occursIn Y (replaceFirstL Y T d) = false := by
  by_cases hx : occursIn Y d = true
  · obtain ⟨A, B, hd, hrep⟩ := replaceFirstL_found Y T d hx
    rw [hrep]
    by_contra hc
    rw [Bool.not_eq_false] at hc
    rcases occursIn_sandwich Y A T B hbf hT hYT hc with h1 | h1
    · rw [occursIn_iff] at h1
      obtain ⟨a, b, rfl⟩ := h1
      have h2 : 2 ≤ occCount Y d := by
        rw [hd]
        have := two_le_occCount Y a b B hY
        calc 2 ≤ occCount Y (a ++ (Y ++ (b ++ (Y ++ B)))) := this
          _ = occCount Y (a ++ Y ++ b ++ Y ++ B) := by simp [List.append_assoc]
      omega
    · rw [occursIn_iff] at h1
      obtain ⟨a, b, rfl⟩ := h1
      have h2 : 2 ≤ occCount Y d := by
        rw [hd]
        have h3 : occCount Y (Y ++ (a ++ (Y ++ b))) ≤ occCount Y (A ++ (Y ++ (a ++ (Y ++ b)))) :=
          occCount_append_le Y A _
        have h4 := two_le_occCount Y [] a b hY
        simp only [List.nil_append] at h4
        calc 2 ≤ occCount Y (A ++ (Y ++ (a ++ (Y ++ b)))) := le_trans h4 h3
          _ = occCount Y (A ++ Y ++ (a ++ Y ++ b)) := by simp [List.append_assoc]
      omega
  · rw [Bool.not_eq_true] at hx
    rw [replaceFirstL_not_found Y T d hx]
    exact hx

theorem runReplacements_data (docXml : String) (pairs : List (String × String)) :
    (runReplacements docXml pairs).data
    = runReplacementsL docXml.data (pairs.map (fun pr => (pr.1.data, pr.2.data))) := by
  induction pairs generalizing docXml with
  | nil => rfl
  | cons pr rest ih =>
    rw [runReplacements, runReplacementsL, List.map_cons, List.foldl_cons, List.foldl_cons]
    by_cases hemp : pr.1.data.isEmpty = true
    · rw [if_pos hemp, if_pos hemp]
      exact ih docXml
    · rw [if_neg hemp, if_neg hemp]
      exact ih (replaceFirst docXml pr.1 pr.2)

theorem run_preserve (P : List (Chars × Chars)) (d Y : Chars) (hbf : braceFree Y = true)
    (hsh : ∀ pr ∈ P, ∃ T2, pr.2 = lbrace :: T2 ++ [rbrace])
    (hYT : ∀ pr ∈ P, occursIn Y pr.2 = false)
    (h : occursIn Y d = false) : occursIn Y (runReplacementsL d P) = false := by
  induction P generalizing d with
  | nil => exact h
  | cons pr0 P' ih =>
    rw [runReplacementsL, List.foldl_cons]
    by_cases hemp : pr0.1.isEmpty = true
    · rw [if_pos hemp]
      exact ih d (fun pr hpr => hsh pr (List.mem_cons_of_mem pr0 hpr))
        (fun pr hpr => hYT pr (List.mem_cons_of_mem pr0 hpr)) h
    · rw [if_neg hemp]
      exact ih _ (fun pr hpr => hsh pr (List.mem_cons_of_mem pr0 hpr))
        (fun pr hpr => hYT pr (List.mem_cons_of_mem pr0 hpr))
        (occursIn_replaceFirst_preserve Y pr0.1 pr0.2 d hbf
          (hsh pr0 (List.mem_cons_self pr0 P')) (hYT pr0 (List.mem_cons_self pr0 P')) h)

theorem run_clears (P : List (Chars × Chars)) (d : Chars)
    (hbf : ∀ pr ∈ P, braceFree pr.1 = true)
    (hsh : ∀ pr ∈ P, ∃ T2, pr.2 = lbrace :: T2 ++ [rbrace])
    (hsub : ∀ pr ∈ P, ∀ pr' ∈ P, occursIn pr.1 pr'.2 = false)
    (hcnt : ∀ pr ∈ P, occCount pr.1 d ≤ 1) :
    ∀ pr ∈ P, pr.1 ≠ [] → occursIn pr.1 (runReplacementsL d P) = false := by
  induction P generalizing d with
  | nil => intro pr hpr; exact absurd hpr (by simp)
  | cons pr0 P' ih =>
    intro pr hpr hne
    have hmem0 : pr0 ∈ pr0 :: P' := List.mem_cons_self pr0 P'
    have hstep : ∀ q ∈ P', occCount q.1
        (if pr0.1.isEmpty = true then d else replaceFirstL pr0.1 pr0.2 d) ≤ 1 := by
      intro q hq
      by_cases hemp : pr0.1.isEmpty = true
      · rw [if_pos hemp]
        exact hcnt q (List.mem_cons_of_mem pr0 hq)
      · rw [if_neg hemp]
        refine le_trans (occCount_replaceFirst_le q.1 pr0.1 pr0.2 d
          (hbf q (List.mem_cons_of_mem pr0 hq)) (hsh pr0 hmem0)
          (hsub q (List.mem_cons_of_mem pr0 hq) pr0 hmem0)) ?_
        exact hcnt q (List.mem_cons_of_mem pr0 hq)
    rw [runReplacementsL, List.foldl_cons]
    rcases List.mem_cons.mp hpr with rfl | hpr'
    · have hclear : occursIn pr.1
          (if pr.1.isEmpty = true then d else replaceFirstL pr.1 pr.2 d) = false := by
        by_cases hemp : pr.1.isEmpty = true
        · exact absurd (List.isEmpty_iff.mp hemp) hne
        · rw [if_neg hemp]
          exact occursIn_replaceFirst_self pr.1 pr.2 d hne (hbf pr hpr) (hsh pr hpr)
            (hsub pr hpr pr hpr) (hcnt pr hpr)
      exact run_preserve P' _ pr.1 (hbf pr hpr)
        (fun q hq => hsh q (List.mem_cons_of_mem pr hq))
        (fun q hq => hsub pr hpr q (List.mem_cons_of_mem pr hq)) hclear
    · exact ih _ (fun q hq => hbf q (List.mem_cons_of_mem pr0 hq))
        (fun q hq => hsh q (List.mem_cons_of_mem pr0 hq))
        (fun q hq q' hq' => hsub q (List.mem_cons_of_mem pr0 hq) q'
          (List.mem_cons_of_mem pr0 hq'))
        hstep pr hpr' hne

theorem run_noop (P : List (Chars × Chars)) (d : Chars)
    (h : ∀ pr ∈ P, pr.1 ≠ [] → occursIn pr.1 d = false) :
    runReplacementsL d P = d := by
  induction P generalizing d with
  | nil => rfl
  | cons pr0 P' ih =>
    rw [runReplacementsL, List.foldl_cons]
    by_cases hemp : pr0.1.isEmpty = true
    · rw [if_pos hemp]
      exact ih d (fun q hq => h q (List.mem_cons_of_mem pr0 hq))
    · rw [if_neg hemp]
      have hne : pr0.1 ≠ [] := by
        intro hcontra
        rw [hcontra] at hemp
        exact hemp rfl
      rw [replaceFirstL_not_found pr0.1 pr0.2 d (h pr0 (List.mem_cons_self pr0 P') hne)]
      exact ih d (fun q hq => h q (List.mem_cons_of_mem pr0 hq))

theorem mem_optPair (pr : String × String) (v : Option String) (tok : String)
    (h : pr ∈ optPair v tok) : pr.1 ≠ "" ∧ pr.2 = tok := by
  match v with
  | none => simp [optPair] at h
  | some s =>
    simp only [optPair] at h
    by_cases hs : s = ""
    · rw [if_pos hs] at h
      simp at h
    · rw [if_neg hs] at h
      simp only [List.mem_singleton] at h
      rw [h]
      exact ⟨hs, rfl⟩

theorem buildReplacements_shape (parsed : ParsedResume) :
    ∀ pr ∈ buildReplacementsInDocumentOrder parsed,
      pr.1 ≠ "" ∧ ∃ path, pr.2 = ph path := by
  intro pr hpr
  simp only [buildReplacementsInDocumentOrder, List.mem_flatMap] at hpr
  obtain ⟨sv, hsv, hmem⟩ := hpr
  obtain ⟨hne, htok⟩ := mem_optPair pr sv.1 (ph sv.2) hmem
  exact ⟨hne, sv.2, htok⟩

theorem ph_data (path : String) :
    (ph path).data = lbrace :: (lbrace :: path.data ++ [rbrace]) ++ [rbrace] := by
  have h1 : ("\x7b\x7b" : String).data = [lbrace, lbrace] := by decide
  have h2 : ("\x7d\x7d" : String).data = [rbrace, rbrace] := by decide
  rw [ph, String.data_append, String.data_append, h1, h2]
  simp

/-- **C6 counterexample.** For the parsed resume whose only value is the
contact name `"Ada"` and the document text `"Ada Ada"`, the claim fails:
after the first templating run the literal `"Ada"` is still found in the
output (the first-occurrence replacement left the second occurrence in
place), and a second run is not a no-op — it replaces the remaining
occurrence as well. -/
theorem secondRun_counterexample :
    buildReplacementsInDocumentOrder c6Parsed = [("Ada", ph "contact.name")]
    ∧ occursIn "Ada".data
        (runReplacements "Ada Ada" (buildReplacementsInDocumentOrder c6Parsed)).data = true
    ∧ runReplacements (runReplacements "Ada Ada" (buildReplacementsInDocumentOrder c6Parsed))
        (buildReplacementsInDocumentOrder c6Parsed)
      ≠ runReplacements "Ada Ada" (buildReplacementsInDocumentOrder c6Parsed) := by
  refine ⟨by decide, by decide, by decide⟩

/-- **C6 amended.** Re-running the injector's replacement loop on the
already-templated output is a no-op — and no emitted literal value is found
again — provided each emitted literal value occurs at most once in the
original document, contains no brace character, and does not occur inside
any emitted placeholder token. (Without these provisos the property fails:
see the counterexample with a repeated literal.) -/
theorem secondRun_noop (parsed : ParsedResume) (docXml : String)
    (hbf : ∀ pr ∈ buildReplacementsInDocumentOrder parsed, braceFree pr.1.data = true)
    (hsub : ∀ pr ∈ buildReplacementsInDocumentOrder parsed,
        ∀ pr' ∈ buildReplacementsInDocumentOrder parsed,
          occursIn pr.1.data pr'.2.data = false)
    (hcnt : ∀ pr ∈ buildReplacementsInDocumentOrder parsed,
        occCount pr.1.data docXml.data ≤ 1) :
    (∀ pr ∈ buildReplacementsInDocumentOrder parsed,
      occursIn pr.1.data
        (runReplacements docXml (buildReplacementsInDocumentOrder parsed)).data = false)
    ∧ runReplacements (runReplacements docXml (buildReplacementsInDocumentOrder parsed))
        (buildReplacementsInDocumentOrder parsed)
      = runReplacements docXml (buildReplacementsInDocumentOrder parsed) := by
  set pairs := buildReplacementsInDocumentOrder parsed with hpairs
  set P : List (Chars × Chars) := pairs.map (fun pr => (pr.1.data, pr.2.data)) with hP
  have hbf' : ∀ q ∈ P, braceFree q.1 = true := by
    intro q hq
    rw [hP] at hq
    simp only [List.mem_map] at hq
    obtain ⟨pr, hpr, rfl⟩ := hq
    exact hbf pr hpr
  have hsh' : ∀ q ∈ P, ∃ T2, q.2 = lbrace :: T2 ++ [rbrace] := by
    intro q hq
    rw [hP] at hq
    simp only [List.mem_map] at hq
    obtain ⟨pr, hpr, rfl⟩ := hq
    obtain ⟨-, path, hpath⟩ := buildReplacements_shape parsed pr hpr
    exact ⟨lbrace :: path.data ++ [rbrace], by rw [hpath, ph_data]⟩
  have hsub' : ∀ q ∈ P, ∀ q' ∈ P, occursIn q.1 q'.2 = false := by
    intro q hq q' hq'
    rw [hP] at hq hq'
    simp only [List.mem_map] at hq hq'
    obtain ⟨pr, hpr, rfl⟩ := hq
    obtain ⟨pr', hpr', rfl⟩ := hq'
    exact hsub pr hpr pr' hpr'
  have hcnt' : ∀ q ∈ P, occCount q.1 docXml.data ≤ 1 := by
    intro q hq
    rw [hP] at hq
    simp only [List.mem_map] at hq
    obtain ⟨pr, hpr, rfl⟩ := hq
    exact hcnt pr hpr
  have hclears := run_clears P docXml.data hbf' hsh' hsub' hcnt'
  have hout : (runReplacements docXml pairs).data = runReplacementsL docXml.data P :=
    runReplacements_data docXml pairs
  have hfirst : ∀ pr ∈ pairs, occursIn pr.1.data (runReplacements docXml pairs).data = false := by
    intro pr hpr
    rw [hout]
    have hne : pr.1.data ≠ [] := by
      intro hcontra
      obtain ⟨hne', -⟩ := buildReplacements_shape parsed pr hpr
      exact hne' (String.ext (by rw [hcontra]))
    exact hclears (pr.1.data, pr.2.data) (by rw [hP]; exact List.mem_map_of_mem _ hpr) hne
  refine ⟨hfirst, ?_⟩
  have h2 : (runReplacements (runReplacements docXml pairs) pairs).data
      = (runReplacements docXml pairs).data := by
    rw [runReplacements_data, ← hP, hout]
    refine run_noop P (runReplacementsL docXml.data P) ?_
    intro q hq hqne
    rw [hP] at hq
    simp only [List.mem_map] at hq
    obtain ⟨pr, hpr, rfl⟩ := hq
    have := hfirst pr hpr
    rw [hout] at this
    exact this
  exact String.ext h2

/-- **C6 amended, witness.** -/
theorem secondRun_noop_witness :
    (∀ pr ∈ buildReplacementsInDocumentOrder c6WitnessParsed,
      occursIn pr.1.data (runReplacements "Ada Lovelace * Lean"
        (buildReplacementsInDocumentOrder c6WitnessParsed)).data = false)
    ∧ runReplacements
        (runReplacements "Ada Lovelace * Lean" (buildReplacementsInDocumentOrder c6WitnessParsed))
        (buildReplacementsInDocumentOrder c6WitnessParsed)
      = runReplacements "Ada Lovelace * Lean" (buildReplacementsInDocumentOrder c6WitnessParsed) :=
  secondRun_noop c6WitnessParsed "Ada Lovelace * Lean" (by decide) (by decide) (by decide)

theorem mem_replaceAllL (pat rep : Chars) (c : Char) :
    ∀ s, c ∈ replaceAllL pat rep s → c ∈ rep ∨ c ∈ s := by
  have key : ∀ n (s : Chars), s.length ≤ n → c ∈ replaceAllL pat rep s → c ∈ rep ∨ c ∈ s := by
    intro n
    induction n with
    | zero =>
      intro s hs hc
      have hnil : s = [] := List.eq_nil_of_length_eq_zero (Nat.le_zero.mp hs)
      subst hnil
      rw [replaceAllL_nil] at hc; simp at hc
    | succ n ihn =>
      intro s hs hc
      cases s with
      | nil => rw [replaceAllL_nil] at hc; simp at hc
      | cons a t =>
        rw [replaceAllL_cons] at hc
        by_cases hsw : startsWith pat (a :: t) = true
        · rw [if_pos hsw] at hc
          rcases List.mem_append.mp hc with h | h
          · exact Or.inl h
          · have hlen : (t.drop (pat.length - 1)).length ≤ n := by
              have := List.length_drop (pat.length - 1) t
              simp only [List.length_cons] at hs
              omega
            rcases ihn (t.drop (pat.length - 1)) hlen h with h2 | h2
            · exact Or.inl h2
            · exact Or.inr (List.mem_cons_of_mem a (List.drop_subset _ t h2))
        · rw [if_neg hsw] at hc
          rcases List.mem_cons.mp hc with rfl | h
          · exact Or.inr (by simp)
          · have hlen : t.length ≤ n := by
              simp only [List.length_cons] at hs
              omega
            rcases ihn t hlen h with h2 | h2
            · exact Or.inl h2
            · exact Or.inr (List.mem_cons_of_mem a h2)
  exact fun s => key s.length s le_rfl

theorem braceFree_of_forall (l : Chars) (h : ∀ c ∈ l, c ≠ lbrace ∧ c ≠ rbrace) :
    braceFree l = true := by
  simp only [braceFree, List.all_eq_true, Bool.and_eq_true, decide_eq_true_eq]
  exact h

theorem braceFree_replaceAllL (pat rep s : Chars) (hrep : braceFree rep = true)
    (hs : braceFree s = true) : braceFree (replaceAllL pat rep s) = true := by
  refine braceFree_of_forall _ (fun c hc => ?_)
  rcases mem_replaceAllL pat rep c s hc with h | h
  · exact braceFree_mem rep hrep c h
  · exact braceFree_mem s hs c h

theorem braceFree_escape (v : String) (hv : braceFree v.data = true) :
    braceFree (escapeXmlText v).data = true := by
  have h1 : braceFree ("&amp;".data) = true := by decide
  have h2 : braceFree ("&lt;".data) = true := by decide
  have h3 : braceFree ("&gt;".data) = true := by decide
  have h4 : braceFree ("&quot;".data) = true := by decide
  have h5 : braceFree ("&apos;".data) = true := by decide
  exact braceFree_replaceAllL _ _ _ h5
    (braceFree_replaceAllL _ _ _ h4
      (braceFree_replaceAllL _ _ _ h3
        (braceFree_replaceAllL _ _ _ h2
          (braceFree_replaceAllL _ _ _ h1 hv))))

theorem ph_dataL (path : String) : (ph path).data = phL path.data := by
  rw [ph_data, phL]
  simp

theorem phL_ne_nil (kd : Chars) : phL kd ≠ [] := by
  simp [phL]

/-- Rendering commutes with slot substitution: the raw replacement of
`{{k}}` by a brace-free `v` in the rendered text is exactly the rendering
of the substituted pieces. -/
theorem replaceAll_render (k v : String) (pieces : List DocPiece)
    (hk : braceFree k.data = true) (hv : braceFree v.data = true)
    (hw : ∀ pc ∈ pieces, pieceBF pc = true) :
    replaceAllL (ph k).data v.data (renderDocL pieces)
      = renderDocL (pieces.map (substSlot k v)) := by
  induction pieces with
  | nil =>
    show replaceAllL (ph k).data v.data [] = []
    rw [replaceAllL_nil]
  | cons pc rest ih =>
    have hwrest : ∀ q ∈ rest, pieceBF q = true :=
      fun q hq => hw q (List.mem_cons_of_mem pc hq)
    have ihr := ih hwrest
    cases pc with
    | chunk s =>
      have hbs : braceFree s.data = true := by
        have := hw (DocPiece.chunk s) (by simp)
        simpa [pieceBF] using this
      rw [List.map_cons]
      show replaceAllL (ph k).data v.data (s.data ++ renderDocL rest)
        = s.data ++ renderDocL (rest.map (substSlot k v))
      rw [ph_dataL, phL]
      rw [replaceAllL_pass _ _ s.data _
        (chunkRegion (lbrace :: (k.data ++ [rbrace, rbrace])) s.data _ hbs)]
      rw [← phL, ← ph_dataL, ihr]
    | slot k' =>
      by_cases hkk : k' = k
      · subst hkk
        rw [List.map_cons]
        show replaceAllL (ph k').data v.data ((ph k').data ++ renderDocL rest)
          = (renderPiece (substSlot k' v (DocPiece.slot k'))).data ++
              renderDocL (rest.map (substSlot k' v))
        rw [replaceAllL_self _ _ _ (by rw [ph_dataL]; exact phL_ne_nil _)]
        rw [ihr]
        simp [substSlot, renderPiece]
      · have hbk' : braceFree k'.data = true := by
          have := hw (DocPiece.slot k') (by simp)
          simpa [pieceBF] using this
        have hne : k.data ≠ k'.data := fun hcontra => hkk (String.ext hcontra).symm
        rw [List.map_cons]
        show replaceAllL (ph k).data v.data ((ph k').data ++ renderDocL rest)
          = (renderPiece (substSlot k v (DocPiece.slot k'))).data ++
              renderDocL (rest.map (substSlot k v))
        rw [ph_dataL, ph_dataL]
        rw [replaceAllL_pass _ _ (phL k'.data) _
          (phRegionCond k.data k'.data _ hk hbk' hne)]
        rw [← ph_dataL, ← ph_dataL, ihr]
        simp [substSlot, renderPiece, hkk, ph_dataL]

/-- In a well-formed document, `{{k}}` occurs in the rendered text exactly
when a `k`-slot piece is present. -/
theorem occursIn_render (k : String) (pieces : List DocPiece)
    (hk : braceFree k.data = true)
    (hw : ∀ pc ∈ pieces, pieceBF pc = true) :
    occursIn (ph k).data (renderDocL pieces) = true ↔ DocPiece.slot k ∈ pieces := by
  induction pieces with
  | nil =>
    simp only [renderDocL, List.not_mem_nil, iff_false]
    rw [ph_dataL, phL]
    simp [occursIn, startsWith]
  | cons pc rest ih =>
    have hwrest : ∀ q ∈ rest, pieceBF q = true :=
      fun q hq => hw q (List.mem_cons_of_mem pc hq)
    have ihr := ih hwrest
    cases pc with
    | chunk s =>
      have hbs : braceFree s.data = true := by
        have := hw (DocPiece.chunk s) (by simp)
        simpa [pieceBF] using this
      show occursIn (ph k).data (s.data ++ renderDocL rest) = true ↔ _
      rw [ph_dataL, phL]
      rw [occursIn_pass _ s.data _
        (chunkRegion (lbrace :: (k.data ++ [rbrace, rbrace])) s.data _ hbs)]
      rw [← phL, ← ph_dataL, ihr]
      simp
    | slot k' =>
      by_cases hkk : k' = k
      · subst hkk
        show occursIn (ph k').data ((ph k').data ++ renderDocL rest) = true ↔ _
        constructor
        · intro _
          simp
        · intro _
          exact occursIn_of_startsWith _ _ (startsWith_self_append _ _)
      · have hbk' : braceFree k'.data = true := by
          have := hw (DocPiece.slot k') (by simp)
          simpa [pieceBF] using this
        have hne : k.data ≠ k'.data := fun hcontra => hkk (String.ext hcontra).symm
        show occursIn (ph k).data ((ph k').data ++ renderDocL rest) = true ↔ _
        rw [ph_dataL, ph_dataL]
        rw [occursIn_pass _ (phL k'.data) _
          (phRegionCond k.data k'.data _ hk hbk' hne)]
        rw [← ph_dataL, ihr]
        simp only [List.mem_cons, iff_or_self]
        intro hcontra
        exact absurd (DocPiece.slot.inj hcontra.symm) hkk

theorem render_contains_chunk (s : String) (pieces : List DocPiece)
    (h : DocPiece.chunk s ∈ pieces) :
    occursIn s.data (renderDocL pieces) = true := by
  induction pieces with
  | nil => simp at h
  | cons pc rest ih =>
    rcases List.mem_cons.mp h with rfl | h
    · show occursIn s.data (s.data ++ renderDocL rest) = true
      exact occursIn_of_startsWith _ _ (startsWith_self_append _ _)
    · show occursIn s.data ((renderPiece pc).data ++ renderDocL rest) = true
      exact occursIn_append_right _ _ _ (ih h)

theorem substSlot_id (k v : String) (pieces : List DocPiece)
    (h : DocPiece.slot k ∉ pieces) : pieces.map (substSlot k v) = pieces := by
  induction pieces with
  | nil => rfl
  | cons pc rest ih =>
    rw [List.map_cons, ih (fun hc => h (List.mem_cons_of_mem pc hc))]
    congr 1
    cases pc with
    | chunk s => rfl
    | slot k' =>
      have hne : k' ≠ k := fun hc => h (by rw [hc]; simp)
      simp [substSlot, hne]

theorem pieceBF_subst (k v : String) (pc : DocPiece) (hpc : pieceBF pc = true)
    (hv : braceFree v.data = true) : pieceBF (substSlot k v pc) = true := by
  cases pc with
  | chunk s => exact hpc
  | slot k' =>
    by_cases hkk : k' = k
    · simp [substSlot, hkk, pieceBF, hv]
    · simp only [substSlot, if_neg hkk]
      exact hpc

theorem slot_not_mem_subst (k v : String) (pieces : List DocPiece) :
    DocPiece.slot k ∉ pieces.map (substSlot k v) := by
  intro h
  simp only [List.mem_map] at h
  obtain ⟨pc, -, hpc⟩ := h
  cases pc with
  | chunk s => simp [substSlot] at hpc
  | slot k' =>
    by_cases hkk : k' = k
    · simp [substSlot, hkk] at hpc
    · simp only [substSlot, if_neg hkk] at hpc
      exact hkk (DocPiece.slot.inj hpc)

theorem slot_mem_subst_of (k k' v : String) (pieces : List DocPiece) (hne : k ≠ k')
    (h : DocPiece.slot k ∈ pieces) : DocPiece.slot k ∈ pieces.map (substSlot k' v) := by
  refine List.mem_map.mpr ⟨DocPiece.slot k, h, ?_⟩
  simp [substSlot, hne]

theorem slot_mem_of_mem_subst (k k' v : String) (pieces : List DocPiece)
    (h : DocPiece.slot k ∈ pieces.map (substSlot k' v)) : DocPiece.slot k ∈ pieces := by
  simp only [List.mem_map] at h
  obtain ⟨pc, hpc, heq⟩ := h
  cases pc with
  | chunk s => simp [substSlot] at heq
  | slot k2 =>
    by_cases hkk : k2 = k'
    · simp [substSlot, hkk] at heq
    · simp only [substSlot, if_neg hkk] at heq
      rw [← DocPiece.slot.inj heq]
      exact hpc

theorem chunk_mem_subst (s k v : String) (pieces : List DocPiece)
    (h : DocPiece.chunk s ∈ pieces) : DocPiece.chunk s ∈ pieces.map (substSlot k v) :=
  List.mem_map.mpr ⟨DocPiece.chunk s, h, rfl⟩

theorem applyAll_WF (payload : List (String × String)) (pieces : List DocPiece)
    (hv : ∀ kv ∈ payload, braceFree kv.2.data = true)
    (hw : ∀ pc ∈ pieces, pieceBF pc = true) :
    ∀ pc ∈ applyAll payload pieces, pieceBF pc = true := by
  induction payload generalizing pieces with
  | nil => exact hw
  | cons kv rest ih =>
    refine ih _ (fun q hq => hv q (List.mem_cons_of_mem kv hq)) ?_
    intro pc hpc
    simp only [List.mem_map] at hpc
    obtain ⟨q, hq, rfl⟩ := hpc
    exact pieceBF_subst _ _ q (hw q hq)
      (braceFree_escape kv.2 (hv kv (List.mem_cons_self kv rest)))

theorem chunk_mem_applyAll (s : String) (payload : List (String × String))
    (pieces : List DocPiece) (h : DocPiece.chunk s ∈ pieces) :
    DocPiece.chunk s ∈ applyAll payload pieces := by
  induction payload generalizing pieces with
  | nil => exact h
  | cons kv rest ih => exact ih _ (chunk_mem_subst s _ _ pieces h)

theorem slot_not_mem_applyAll_of (k : String) (payload : List (String × String))
    (pieces : List DocPiece) (h : DocPiece.slot k ∉ pieces) :
    DocPiece.slot k ∉ applyAll payload pieces := by
  induction payload generalizing pieces with
  | nil => exact h
  | cons kv rest ih =>
    exact ih _ (fun hc => h (slot_mem_of_mem_subst k kv.1 _ pieces hc))

theorem slot_not_mem_applyAll (payload : List (String × String)) (pieces : List DocPiece)
    (k : String) (hmem : k ∈ payload.map Prod.fst) :
    DocPiece.slot k ∉ applyAll payload pieces := by
  induction payload generalizing pieces with
  | nil => simp at hmem
  | cons kv rest ih =>
    by_cases hkk : k = kv.1
    · subst hkk
      exact slot_not_mem_applyAll_of kv.1 rest _ (slot_not_mem_subst kv.1 _ pieces)
    · have hmem' : k ∈ rest.map Prod.fst := by
        simp only [List.map_cons, List.mem_cons] at hmem
        rcases hmem with h | h
        · exact absurd h hkk
        · exact h
      exact ih _ hmem'

theorem chunk_esc_mem_applyAll (payload : List (String × String)) (pieces : List DocPiece)
    (kv : String × String) (hnd : (payload.map Prod.fst).Nodup) (hkv : kv ∈ payload)
    (hslot : DocPiece.slot kv.1 ∈ pieces) :
    DocPiece.chunk (escapeXmlText kv.2) ∈ applyAll payload pieces := by
  induction payload generalizing pieces with
  | nil => simp at hkv
  | cons kv0 rest ih =>
    rcases List.mem_cons.mp hkv with rfl | hkv'
    · refine chunk_mem_applyAll _ rest _ ?_
      refine List.mem_map.mpr ⟨DocPiece.slot kv.1, hslot, ?_⟩
      simp [substSlot]
    · have hne : kv.1 ≠ kv0.1 := by
        intro hc
        rw [List.map_cons, List.nodup_cons] at hnd
        exact hnd.1 (hc ▸ List.mem_map_of_mem Prod.fst hkv')
      have hnd' : (rest.map Prod.fst).Nodup := by
        rw [List.map_cons, List.nodup_cons] at hnd
        exact hnd.2
      exact ih _ hnd' hkv' (slot_mem_subst_of kv.1 kv0.1 _ pieces hne hslot)

theorem rawFallbackPass_render (payload : List (String × String)) (pieces : List DocPiece)
    (hk : ∀ kv ∈ payload, braceFree kv.1.data = true)
    (hv : ∀ kv ∈ payload, braceFree kv.2.data = true)
    (hw : ∀ pc ∈ pieces, pieceBF pc = true) :
    (rawFallbackPass (String.mk (renderDocL pieces)) payload).data
      = renderDocL (applyAll payload pieces) := by
  induction payload generalizing pieces with
  | nil => rfl
  | cons kv rest ih =>
    have hk0 : braceFree kv.1.data = true := hk kv (List.mem_cons_self kv rest)
    have hv0 : braceFree kv.2.data = true := hv kv (List.mem_cons_self kv rest)
    have hktail : ∀ q ∈ rest, braceFree q.1.data = true :=
      fun q hq => hk q (List.mem_cons_of_mem kv hq)
    have hvtail : ∀ q ∈ rest, braceFree q.2.data = true :=
      fun q hq => hv q (List.mem_cons_of_mem kv hq)
    have hwsub : ∀ pc ∈ pieces.map (substSlot kv.1 (escapeXmlText kv.2)), pieceBF pc = true := by
      intro pc hpc
      simp only [List.mem_map] at hpc
      obtain ⟨q, hq, rfl⟩ := hpc
      exact pieceBF_subst _ _ q (hw q hq) (braceFree_escape kv.2 hv0)
    by_cases hocc : occursIn (ph kv.1).data (String.mk (renderDocL pieces)).data = true
    · have hstep : rawFallbackPass (String.mk (renderDocL pieces)) (kv :: rest)
          = rawFallbackPass
              (String.mk (renderDocL (pieces.map (substSlot kv.1 (escapeXmlText kv.2))))) rest := by
        rw [rawFallbackPass, List.foldl_cons, if_pos hocc]
        have hdoc : replaceAllL (ph kv.1).data (escapeXmlText kv.2).data
            (String.mk (renderDocL pieces)).data
            = renderDocL (pieces.map (substSlot kv.1 (escapeXmlText kv.2))) := by
          exact replaceAll_render kv.1 (escapeXmlText kv.2) pieces hk0
            (braceFree_escape kv.2 hv0) hw
        rw [hdoc]
        rfl
      rw [hstep]
      have happ : applyAll (kv :: rest) pieces
          = applyAll rest (pieces.map (substSlot kv.1 (escapeXmlText kv.2))) := rfl
      rw [happ]
      exact ih _ hktail hvtail hwsub
    · have hnoslot : DocPiece.slot kv.1 ∉ pieces := by
        intro hc
        exact hocc ((occursIn_render kv.1 pieces hk0 hw).mpr hc)
      have hid : pieces.map (substSlot kv.1 (escapeXmlText kv.2)) = pieces :=
        substSlot_id kv.1 (escapeXmlText kv.2) pieces hnoslot
      have hstep : rawFallbackPass (String.mk (renderDocL pieces)) (kv :: rest)
          = rawFallbackPass (String.mk (renderDocL pieces)) rest := by
        rw [rawFallbackPass, List.foldl_cons, if_neg hocc]
        rfl
      rw [hstep]
      have happ : applyAll (kv :: rest) pieces
          = applyAll rest pieces := by
        show applyAll rest (pieces.map (substSlot kv.1 (escapeXmlText kv.2)))
          = applyAll rest pieces
        rw [hid]
      rw [happ]
      exact ih pieces hktail hvtail hw

set_option maxRecDepth 10000 in
/-- **C3 counterexample.** For the resume whose contact name is `"A & B"`,
`buildTemplatePayload` maps `contact.name` to `"A & B"`; populating the
templated document `"{{contact.name}}"` (whose placeholder is present)
yields `"A &amp; B"`, which does **not** contain the literal payload value
`"A & B"` — only the XML-escaped form — so the round-trip claim fails as
stated. -/
theorem populateTemplate_literal_counterexample :
    (buildTemplatePayload c3Parsed none).lookup "contact.name" = some "A & B"
    ∧ occursIn (ph "contact.name").data ("\x7b\x7bcontact.name\x7d\x7d" : String).data = true
    ∧ occursIn "A & B".data
        (populateTemplateText "\x7b\x7bcontact.name\x7d\x7d"
          (buildTemplatePayload c3Parsed none)).data = false
    ∧ populateTemplateText "\x7b\x7bcontact.name\x7d\x7d" (buildTemplatePayload c3Parsed none)
      = "A &amp; B" := by
  refine ⟨by decide, by decide, by decide, by decide⟩

/-- **C3 amended.** For a templated document made of brace-free chunks and
`{{key}}` placeholders, and a payload whose keys are distinct and whose
keys and values are brace-free, `populateTemplate`'s text-payload effect
leaves no residual `{{key}}` token for any key present in the payload and
contains the **escaped** payload value at least once for every key whose
placeholder occurred in the document. (The literal value itself need not
appear: values are XML-escaped on insertion — see the counterexample.) -/
theorem populateTemplate_amended (pieces : List DocPiece) (payload : List (String × String))
    (hk : ∀ kv ∈ payload, braceFree kv.1.data = true)
    (hv : ∀ kv ∈ payload, braceFree kv.2.data = true)
    (hw : ∀ pc ∈ pieces, pieceBF pc = true)
    (hnd : (payload.map Prod.fst).Nodup) :
    (∀ kv ∈ payload, occursIn (ph kv.1).data
        (populateTemplateText (String.mk (renderDocL pieces)) payload).data = false)
    ∧ (∀ kv ∈ payload, DocPiece.slot kv.1 ∈ pieces →
        occursIn (escapeXmlText kv.2).data
          (populateTemplateText (String.mk (renderDocL pieces)) payload).data = true) := by
  have hpass := rawFallbackPass_render payload pieces hk hv hw
  constructor
  · intro kv hkv
    show occursIn (ph kv.1).data (rawFallbackPass (String.mk (renderDocL pieces)) payload).data
      = false
    rw [hpass]
    have hwfin := applyAll_WF payload pieces hv hw
    rw [Bool.eq_false_iff]
    intro hc
    have hmem := (occursIn_render kv.1 _ (hk kv hkv) hwfin).mp hc
    exact slot_not_mem_applyAll payload pieces kv.1 (List.mem_map_of_mem Prod.fst hkv) hmem
  · intro kv hkv hslot
    show occursIn (escapeXmlText kv.2).data
      (rawFallbackPass (String.mk (renderDocL pieces)) payload).data = true
    rw [hpass]
    exact render_contains_chunk _ _ (chunk_esc_mem_applyAll payload pieces kv hnd hkv hslot)

/-- **C3 amended, witness.** -/
theorem populateTemplate_amended_witness :
    (∀ kv ∈ [("contact.name", "A & B")],
      occursIn (ph kv.1).data
        (populateTemplateText
          (String.mk (renderDocL [DocPiece.slot "contact.name", DocPiece.chunk " rest"]))
          [("contact.name", "A & B")]).data = false)
    ∧ (∀ kv ∈ [("contact.name", "A & B")],
        DocPiece.slot kv.1 ∈ [DocPiece.slot "contact.name", DocPiece.chunk " rest"] →
        occursIn (escapeXmlText kv.2).data
          (populateTemplateText
            (String.mk (renderDocL [DocPiece.slot "contact.name", DocPiece.chunk " rest"]))
            [("contact.name", "A & B")]).data = true) :=
  populateTemplate_amended [DocPiece.slot "contact.name", DocPiece.chunk " rest"]
    [("contact.name", "A & B")] (by decide) (by decide) (by decide) (by decide)

/-! ## C8 and C9: education extractor invariants -/

/-- **C8.** For non-empty section text, `parseEducationBlock` returns at
least one entry; every returned entry has a non-empty `rawText`; and when
the per-block loop yields no entries the result is exactly one entry whose
`rawText` is the trimmed section text and whose structured fields are all
absent. -/
theorem parseEducationBlock_never_empty (text : String) (h : trimChars text.data ≠ []) :
    parseEducationBlock text ≠ []
    ∧ (∀ e ∈ parseEducationBlock text, ∃ b : Chars, e.rawText = some (String.mk b) ∧ b ≠ [])
    ∧ ((splitEduBlocks text.data).filterMap (fun b =>
          let t := trimChars b
          if t.isEmpty then none else some (eduEntryOfBlock t)) = [] →
        parseEducationBlock text
          = [{ school := none, degree := none, dates := none, gpa := none,
               rawText := some (String.mk (trimChars text.data)) }]) := by
  have htrim : (trimChars text.data).isEmpty = false := by
    cases htc : trimChars text.data with
    | nil => exact absurd htc h
    | cons a b => rfl
  by_cases hE : (splitEduBlocks text.data).filterMap (fun b =>
      let t := trimChars b
      if t.isEmpty then none else some (eduEntryOfBlock t)) = []
  · have hres : parseEducationBlock text
        = [{ school := none, degree := none, dates := none, gpa := none,
             rawText := some (String.mk (trimChars text.data)) }] := by
      rw [parseEducationBlock]
      rw [hE]
      simp [htrim]
    refine ⟨by rw [hres]; simp, ?_, fun _ => hres⟩
    intro e he
    rw [hres] at he
    simp only [List.mem_singleton] at he
    subst he
    exact ⟨trimChars text.data, rfl, h⟩
  · have hres : parseEducationBlock text
        = (splitEduBlocks text.data).filterMap (fun b =>
            let t := trimChars b
            if t.isEmpty then none else some (eduEntryOfBlock t)) := by
      rw [parseEducationBlock]
      have hne : ((splitEduBlocks text.data).filterMap (fun b =>
          let t := trimChars b
          if t.isEmpty then none else some (eduEntryOfBlock t))).isEmpty = false := by
        cases hc : (splitEduBlocks text.data).filterMap (fun b =>
            let t := trimChars b
            if t.isEmpty then none else some (eduEntryOfBlock t)) with
        | nil => exact absurd hc hE
        | cons a b => rfl
      rw [hne]
      simp
    refine ⟨by rw [hres]; exact hE, ?_, fun hcontra => absurd hcontra hE⟩
    intro e he
    rw [hres] at he
    simp only [List.mem_filterMap] at he
    obtain ⟨blk, -, hblk⟩ := he
    by_cases ht : (trimChars blk).isEmpty = true
    · simp [ht] at hblk
    · simp only [ht, Bool.false_eq_true, if_false, Option.some.injEq] at hblk
      subst hblk
      refine ⟨trimChars blk, rfl, ?_⟩
      intro hc
      rw [hc] at ht
      exact ht rfl

/-- **C8 witness.** -/
theorem parseEducationBlock_never_empty_witness :
    parseEducationBlock "Unparseable ~~ text" ≠ []
    ∧ (∀ e ∈ parseEducationBlock "Unparseable ~~ text",
        ∃ b : Chars, e.rawText = some (String.mk b) ∧ b ≠ [])
    ∧ ((splitEduBlocks ("Unparseable ~~ text" : String).data).filterMap (fun b =>
          let t := trimChars b
          if t.isEmpty then none else some (eduEntryOfBlock t)) = [] →
        parseEducationBlock "Unparseable ~~ text"
          = [{ school := none, degree := none, dates := none, gpa := none,
               rawText := some (String.mk (trimChars ("Unparseable ~~ text" : String).data)) }]) :=
  parseEducationBlock_never_empty "Unparseable ~~ text" (by decide)

/-- **C9.** Every entry returned by `parseEducationBlock` — including
entries whose structured fields were successfully extracted — carries a
non-empty `rawText` equal to the trimmed text of its source block (or the
trimmed section text for the fallback entry). -/
theorem parseEducationBlock_rawText_total (text : String) :
    ∀ e ∈ parseEducationBlock text,
      ∃ b : Chars, e.rawText = some (String.mk b) ∧ b ≠ []
        ∧ ((∃ blk ∈ splitEduBlocks text.data, b = trimChars blk)
            ∨ b = trimChars text.data) := by
  intro e he
  rw [parseEducationBlock] at he
  by_cases hcond : (((splitEduBlocks text.data).filterMap (fun b =>
      let t := trimChars b
      if t.isEmpty then none else some (eduEntryOfBlock t))).isEmpty
      && !(trimChars text.data).isEmpty) = true
  · rw [if_pos hcond] at he
    simp only [List.mem_singleton] at he
    subst he
    simp only [Bool.and_eq_true, Bool.not_eq_true', List.isEmpty_eq_false] at hcond
    refine ⟨trimChars text.data, rfl, ?_, Or.inr rfl⟩
    intro hc
    have := hcond.2
    rw [hc] at this
    exact this rfl
  · rw [if_neg (by simpa using hcond)] at he
    simp only [List.mem_filterMap] at he
    obtain ⟨blk, hblkmem, hblk⟩ := he
    by_cases ht : (trimChars blk).isEmpty = true
    · simp [ht] at hblk
    · simp only [ht, Bool.false_eq_true, if_false, Option.some.injEq] at hblk
      subst hblk
      refine ⟨trimChars blk, rfl, ?_, Or.inl ⟨blk, hblkmem, rfl⟩⟩
      intro hc
      rw [hc] at ht
      exact ht rfl

/-- **C9 witness.** The parsed entry for a block with a successfully
extracted school still has its full trimmed block text as `rawText`. -/
theorem parseEducationBlock_rawText_total_witness :
    ((parseEducationBlock "University of California, Riverside | GPA: 3.90").headD
        {}).school.isSome = true
    ∧ ∃ b : Chars,
        ((parseEducationBlock "University of California, Riverside | GPA: 3.90").headD
            {}).rawText = some (String.mk b) ∧ b ≠ []
          ∧ ((∃ blk ∈ splitEduBlocks
                ("University of California, Riverside | GPA: 3.90" : String).data,
                b = trimChars blk)
              ∨ b = trimChars ("University of California, Riverside | GPA: 3.90" : String).data) :=
  ⟨by decide,
   parseEducationBlock_rawText_total "University of California, Riverside | GPA: 3.90"
     ((parseEducationBlock "University of California, Riverside | GPA: 3.90").headD {})
     (by decide)⟩

/-! ## C7: header-line stripping -/

theorem dropWhile_head_false (l : Chars) (c : Char) (t : Chars)
    (h : List.dropWhile isJsWs l = c :: t) : isJsWs c = false := by
  induction l with
  | nil => simp at h
  | cons a l ih =>
    rw [List.dropWhile_cons] at h
    by_cases ha : isJsWs a = true
    · rw [if_pos ha] at h
      exact ih h
    · rw [if_neg ha] at h
      injection h with h1 h2
      subst h1
      simpa using ha

theorem dropWhile_cons_self (c : Char) (t : Chars) (h : isJsWs c = false) :
    List.dropWhile isJsWs (c :: t) = c :: t := by
  rw [List.dropWhile_cons, if_neg (by simp [h])]

theorem dropWhile_idem (l : Chars) :
    List.dropWhile isJsWs (List.dropWhile isJsWs l) = List.dropWhile isJsWs l := by
  induction l with
  | nil => simp
  | cons a l ih =>
    rw [List.dropWhile_cons]
    by_cases ha : isJsWs a = true
    · rw [if_pos ha]
      exact ih
    · rw [if_neg ha]
      exact dropWhile_cons_self a l (by simpa using ha)

theorem dropWhile_trimChars (s : Chars) :
    List.dropWhile isJsWs (trimChars s) = trimChars s := by
  unfold trimChars
  rcases hA : s.dropWhile isJsWs with _ | ⟨a0, A'⟩
  · simp
  · have ha0 : isJsWs a0 = false := dropWhile_head_false s a0 A' hA
    obtain ⟨u, hu⟩ := List.dropWhile_suffix (l := (a0 :: A').reverse) isJsWs
    rcases hB : (a0 :: A').reverse.dropWhile isJsWs with _ | ⟨b0, B'⟩
    · simp
    · rw [hB] at hu
      have hrev : (a0 :: A').reverse = A'.reverse ++ [a0] := by simp
      rw [hrev] at hu
      rcases hbr : (b0 :: B').reverse with _ | ⟨y, R⟩
      · simp at hbr
      · have hBR : b0 :: B' = R.reverse ++ [y] := by
          have h2 := congrArg List.reverse hbr
          simpa using h2
        have hy : y = a0 := by
          have h2 : (u ++ R.reverse) ++ [y] = A'.reverse ++ [a0] := by
            rw [List.append_assoc, ← hBR]
            exact hu
          have h3 := congrArg List.reverse h2
          simp only [List.reverse_append, List.reverse_cons, List.reverse_nil,
            List.nil_append, List.cons_append, List.singleton_append,
            List.cons.injEq] at h3
          exact h3.1
        rw [hy]
        exact dropWhile_cons_self a0 R ha0

theorem trimChars_idem (s : Chars) : trimChars (trimChars s) = trimChars s := by
  have h1 := dropWhile_trimChars s
  show (((trimChars s).dropWhile isJsWs).reverse.dropWhile isJsWs).reverse = trimChars s
  rw [h1]
  have h2 : (trimChars s).reverse = (s.dropWhile isJsWs).reverse.dropWhile isJsWs := by
    unfold trimChars
    rw [List.reverse_reverse]
  rw [h2, dropWhile_idem ((s.dropWhile isJsWs).reverse)]
  rfl

theorem mem_dropWhile_sub (l : Chars) (c : Char) (h : c ∈ List.dropWhile isJsWs l) :
    c ∈ l := by
  obtain ⟨u, hu⟩ := List.dropWhile_suffix (l := l) isJsWs
  rw [← hu]
  exact List.mem_append_right u h

theorem mem_trimChars_sub (s : Chars) (c : Char) (h : c ∈ trimChars s) : c ∈ s := by
  unfold trimChars at h
  rw [List.mem_reverse] at h
  have h2 := mem_dropWhile_sub _ _ h
  rw [List.mem_reverse] at h2
  exact mem_dropWhile_sub _ _ h2

theorem splitOnChar_ne_nil (sep : Char) (s : Chars) : splitOnChar sep s ≠ [] := by
  induction s with
  | nil => simp [splitOnChar]
  | cons c t ih =>
    rcases hs : splitOnChar sep t with _ | ⟨h1, r⟩
    · exact absurd hs ih
    · simp only [splitOnChar, hs]
      by_cases hc : c = sep
      · simp [hc]
      · simp [hc]

theorem splitOnChar_no_sep (sep : Char) (a : Chars) (h : sep ∉ a) :
    splitOnChar sep a = [a] := by
  induction a with
  | nil => rfl
  | cons c t ih =>
    have hc : ¬ c = sep := fun hcc => h (hcc ▸ List.mem_cons_self c t)
    have ht : sep ∉ t := fun htt => h (List.mem_cons_of_mem c htt)
    simp only [splitOnChar, ih ht]
    simp [hc]

theorem splitOnChar_append_sep (sep : Char) (a b : Chars) (h : sep ∉ a) :
    splitOnChar sep (a ++ sep :: b) = a :: splitOnChar sep b := by
  induction a with
  | nil =>
    rcases hs : splitOnChar sep b with _ | ⟨h1, r⟩
    · exact absurd hs (splitOnChar_ne_nil sep b)
    · simp only [List.nil_append, splitOnChar, hs]
      simp
  | cons c a' ih =>
    have hc : ¬ c = sep := fun hcc => h (hcc ▸ List.mem_cons_self c a')
    have ha' : sep ∉ a' := fun htt => h (List.mem_cons_of_mem c htt)
    simp only [List.cons_append, splitOnChar, ih ha']
    simp [hc]
    rw [ih ha']

theorem mem_splitOnChar_not_sep (sep : Char) (s p : Chars)
    (h : p ∈ splitOnChar sep s) : sep ∉ p := by
  induction s generalizing p with
  | nil =>
    simp only [splitOnChar, List.mem_singleton] at h
    subst h
    simp
  | cons c t ih =>
    rcases hs : splitOnChar sep t with _ | ⟨h1, r⟩
    · exact absurd hs (splitOnChar_ne_nil sep t)
    · rw [hs] at ih
      simp only [splitOnChar, hs] at h
      by_cases hc : c = sep
      · rw [if_pos hc, List.mem_cons] at h
        rcases h with h | h
        · subst h
          simp
        · exact ih p h
      · rw [if_neg hc, List.mem_cons] at h
        rcases h with h | h
        · subst h
          intro hm
          rw [List.mem_cons] at hm
          rcases hm with hm | hm
          · exact hc hm.symm
          · exact ih h1 (List.mem_cons_self h1 r) hm
        · exact ih p (List.mem_cons_of_mem h1 h)

theorem expLines_elem_props (s l : Chars) (h : l ∈ expLines s) :
    ('\n' ∉ l) ∧ trimChars l = l ∧ l ≠ [] := by
  unfold expLines at h
  rw [List.mem_filter] at h
  obtain ⟨hmap, hnem⟩ := h
  rw [List.mem_map] at hmap
  obtain ⟨q, hq, hlq⟩ := hmap
  refine ⟨?_, ?_, ?_⟩
  · intro hc
    have hcq : '\n' ∈ q := mem_trimChars_sub q '\n' (hlq ▸ hc)
    exact mem_splitOnChar_not_sep '\n' s q hq hcq
  · rw [← hlq]
    exact trimChars_idem q
  · intro h0
    rw [h0] at hnem
    simp at hnem

theorem expLines_joinNl (ls : List Chars)
    (h : ∀ l ∈ ls, ('\n' ∉ l) ∧ trimChars l = l ∧ l ≠ []) :
    expLines (joinNl ls) = ls := by
  induction ls with
  | nil => rfl
  | cons l ls ih =>
    obtain ⟨hnl, htr, hne⟩ := h l (List.mem_cons_self l ls)
    have hni : l.isEmpty = false := by
      rcases l with _ | _
      · exact absurd rfl hne
      · rfl
    rcases ls with _ | ⟨l2, ls'⟩
    · show expLines l = [l]
      unfold expLines
      rw [splitOnChar_no_sep '\n' l hnl]
      simp [htr, hni]
    · have hstep : joinNl (l :: l2 :: ls') = l ++ '\n' :: joinNl (l2 :: ls') := rfl
      rw [hstep]
      unfold expLines
      rw [splitOnChar_append_sep '\n' l (joinNl (l2 :: ls')) hnl]
      simp only [List.map_cons, List.filter_cons, htr, hni]
      have ihr := ih (fun x hx => h x (List.mem_cons_of_mem l hx))
      unfold expLines at ihr
      simp only [Bool.not_false, if_true]
      rw [ihr]

theorem stripHeader_shape (block firstLine : Chars)
    (hne : expLines block ≠ [])
    (h0 : (expLines block).headD [] = trimChars firstLine) :
    ∃ ls : List Chars, (∀ l ∈ ls, l ∈ (expLines block).drop 1)
      ∧ stripExperienceHeaderLines block firstLine = joinNl ls := by
  rcases hL : expLines block with _ | ⟨l0, rest⟩
  · exact absurd hL hne
  · rw [hL] at h0
    simp only [List.headD_cons] at h0
    rcases rest with _ | ⟨l1, rest'⟩
    · refine ⟨[], by simp, ?_⟩
      simp [stripExperienceHeaderLines, hL, h0]
    · rcases hsb : splitBar l1 with _ | ⟨lr⟩
      · refine ⟨l1 :: rest', ?_, ?_⟩
        · intro l hl
          simpa using hl
        · simp [stripExperienceHeaderLines, hL, h0, hsb]
      · cases hC : looksLikeTechOrSkills (trimChars lr.2) || roleKeywordsTest (trimChars lr.1) with
        | true =>
          refine ⟨rest', ?_, ?_⟩
          · intro l hl
            simp only [List.drop_succ_cons, List.drop_zero]
            exact List.mem_cons_of_mem l1 hl
          · simp [stripExperienceHeaderLines, hL, h0, hsb, hC]
        | false =>
          refine ⟨l1 :: rest', ?_, ?_⟩
          · intro l hl
            simpa using hl
          · simp [stripExperienceHeaderLines, hL, h0, hsb, hC]

/-- **C7, counterexample.** The extractor consumes the dates line
("Jan 2020 - Present" becomes the entry's `dates`) and detects the role
from the bar line, yet both consumed header lines appear verbatim among
the returned entry's bullets: `stripExperienceHeaderLines` only removes
the first line and, in some cases, the second. -/
theorem stripHeader_counterexample :
    parseExperienceBlock c7Text = [c7Entry]
    ∧ c7Entry.dates = some "Jan 2020 - Present"
    ∧ c7Entry.role = some "Software Engineer"
    ∧ "Jan 2020 - Present" ∈ c7Entry.bullets
    ∧ "Software Engineer | AWS, SQL" ∈ c7Entry.bullets := by
  decide

/-- **C7** (amended). The header line `stripExperienceHeaderLines` does
strip — the trimmed first line of the block — never appears among the
bullets extracted from the stripped block, provided the block's first
parsed line equals it and no later line duplicates it either verbatim or
after bullet-marker cleanup. -/
theorem stripHeader_amended (block firstLine : String)
    (hne : expLines block.data ≠ [])
    (h0 : (expLines block.data).headD [] = trimChars firstLine.data)
    (h1 : ∀ l ∈ (expLines block.data).drop 1,
        l ≠ trimChars firstLine.data
        ∧ trimChars (cleanBullet l) ≠ trimChars firstLine.data) :
    trimChars firstLine.data ∉
      extractBullets (stripExperienceHeaderLines block.data firstLine.data) := by
  obtain ⟨ls, hsub, heq⟩ := stripHeader_shape block.data firstLine.data hne h0
  rw [heq]
  have hprops : ∀ l ∈ ls, ('\n' ∉ l) ∧ trimChars l = l ∧ l ≠ [] := by
    intro l hl
    exact expLines_elem_props block.data l (List.drop_subset 1 _ (hsub l hl))
  have hEL : expLines (joinNl ls) = ls := expLines_joinNl ls hprops
  intro hmem
  simp only [extractBullets, hEL] at hmem
  by_cases hlen :
      0 < (ls.filterMap (fun l =>
        let cleaned := trimChars (cleanBullet l)
        if cleaned.isEmpty then none else some cleaned)).length
  · rw [if_pos hlen] at hmem
    obtain ⟨l, hl, hf⟩ := List.mem_filterMap.mp hmem
    by_cases hce : (trimChars (cleanBullet l)).isEmpty = true
    · rw [if_pos hce] at hf
      exact Option.noConfusion hf
    · rw [if_neg hce] at hf
      have := Option.some.inj hf
      exact (h1 l (hsub l hl)).2 this
  · rw [if_neg hlen] at hmem
    have hm2 := List.mem_of_mem_filter hmem
    exact (h1 _ (hsub _ hm2)).1 rfl

/-- Closed instance of the amended C7 theorem: in the block
`"Acme\n- Built it"` with header line `"Acme"`, the stripped header never
survives as a bullet. -/
theorem stripHeader_amended_witness :
    trimChars "Acme".data ∉
      extractBullets (stripExperienceHeaderLines "Acme\n- Built it".data "Acme".data) :=
  stripHeader_amended "Acme\n- Built it" "Acme" (by decide) (by decide) (by decide)
